import Mathlib

/-!
Verification of the windex incremental file indexer (windex.c).

The development shallowly embeds the core of the program:
* the catalog (SQLite table `files`) as a list of records in table order;
* SQLite mutations (INSERT OR IGNORE / UPDATE / DELETE) as an explicit
  operation language, so that the transaction boundary can be reasoned about;
* `_is_excluded`, `_get_db_mtime`, `_index_entry`, `_prune_stale_entries`,
  `_index_files_dynamic` and `_search_files` as Lean functions over that state;
* the filesystem as a pair of oracles (`stat`, directory listing), and the
  iterative walk with its explicit frontier stack as a fuel-based loop.

Strings are modelled as lists of characters.  SQLite's `LIKE` operator is
modelled with its documented default semantics: `%` matches any run of
characters, `_` matches exactly one character, and plain characters compare
case-insensitively on ASCII letters.
-/

namespace Windex

/-- Paths, names and patterns are C strings, modelled as character lists. -/
abbrev Str := List Char

/-- Helper to build a `Str` from a string literal. -/
def str (s : String) : Str := s.data

/-- The result of a successful `stat` call: directory flag, `st_size`,
`st_mtime`. -/
structure StatInfo where
  isDir : Bool
  size : Int
  mtime : Int
deriving DecidableEq, Repr

/-- One row of the `files` table: `full_path`, `name`, `type`
(`"dir"` or `"file"`), `size`, `mtime`. -/
structure FileRecord where
  full_path : Str
  name : Str
  type : Str
  size : Int
  mtime : Int
deriving DecidableEq, Repr

/-- The catalog: the rows of the `files` table, in table order. -/
abbrev Catalog := List FileRecord

/-- The filesystem, as the two oracles the program consults: `stat` (with
`none` for a failing call) and `opendir`/`readdir` (with `none` when the
directory cannot be opened, `some names` for the entry names it yields). -/
structure FS where
  stat : Str → Option StatInfo
  listDir : Str → Option (List Str)

/-! ### Character and substring helpers -/

/-- `tolower` in the C locale: ASCII uppercase letters are shifted down,
everything else is unchanged. -/
def asciiLower (c : Char) : Char :=
  if 65 ≤ c.toNat ∧ c.toNat ≤ 90 then Char.ofNat (c.toNat + 32) else c

/-- Lowercase a whole string, as `_to_lower` does. -/
def toLowerStr (s : Str) : Str := s.map asciiLower

/-- Case-insensitive (ASCII) character comparison, as used by SQLite `LIKE`. -/
def likeChar (a b : Char) : Bool := asciiLower a == asciiLower b

/-- `needle` matches the beginning of `hay`, character by character. -/
def startsWithChars : Str → Str → Bool
  | [], _ => true
  | _ :: _, [] => false
  | a :: as, b :: bs => a == b && startsWithChars as bs

/-- `strstr(hay, needle) != NULL`: `needle` occurs somewhere inside `hay`. -/
def containsSub (needle : Str) : Str → Bool
  | [] => startsWithChars needle []
  | c :: t => startsWithChars needle (c :: t) || containsSub needle t

/-- Case-insensitive variant of `startsWithChars` (ASCII folding). -/
def startsWithCI : Str → Str → Bool
  | [], _ => true
  | _ :: _, [] => false
  | a :: as, b :: bs => likeChar a b && startsWithCI as bs

/-- Case-insensitive substring occurrence (ASCII folding). -/
def containsCI (needle : Str) : Str → Bool
  | [] => startsWithCI needle []
  | c :: t => startsWithCI needle (c :: t) || containsCI needle t

/-- SQLite `LIKE` matching with its default semantics: `%` matches any run
(the pattern's remainder may start at any suffix of the string), `_` matches
one character, other characters compare ASCII-case-insensitively. -/
def likeMatch : Str → Str → Bool
  | [], s => s.isEmpty
  | c :: ps, s =>
      if c = '%' then s.tails.any (likeMatch ps)
      else
        match s with
        | [] => false
        | b :: bs => (if c = '_' then true else likeChar c b) && likeMatch ps bs

/-! ### Exclusion policy (`_is_excluded`) -/

/-- `_is_excluded`: a path is excluded iff some configured exclusion substring
occurs anywhere within it (`strstr`). -/
def isExcluded (excl : List Str) (path : Str) : Bool :=
  excl.any (fun e => containsSub e path)

/-! ### Catalog store primitives -/

/-- `SELECT mtime FROM files WHERE full_path = ?` — the first row in table
order, with 0 when no row matches (`_get_db_mtime`'s happy path). -/
def getDbMtime (db : Catalog) (p : Str) : Int :=
  match db.find? (fun r => r.full_path == p) with
  | some r => r.mtime
  | none => 0

/-- `_get_db_mtime` in full: when the query fails to prepare (or to yield a
row), the local `mtime` variable keeps its initial value 0. -/
def getDbMtimeF (ok : Bool) (db : Catalog) (p : Str) : Int :=
  if ok then getDbMtime db p else 0

/-- Is some row present for this path? -/
def pathPresent (db : Catalog) (p : Str) : Bool :=
  db.any (fun r => r.full_path == p)

/-- The SQL mutation statements the program executes. -/
inductive MutOp where
  | ins (r : FileRecord)
  | upd (p : Str) (name : Str) (type : Str) (size : Int) (mtime : Int)
  | del (p : Str)
deriving DecidableEq, Repr

/-- Executing one mutation against the table:
`INSERT OR IGNORE` appends unless the unique `full_path` is already present;
`UPDATE ... WHERE full_path = ?` rewrites the mutable fields of matching rows;
`DELETE FROM files WHERE full_path = ?` drops matching rows. -/
def applyMut (db : Catalog) : MutOp → Catalog
  | .ins r => if pathPresent db r.full_path then db else db ++ [r]
  | .upd p n t sz m =>
      db.map (fun r =>
        if r.full_path == p then
          { full_path := r.full_path, name := n, type := t, size := sz, mtime := m }
        else r)
  | .del p => db.filter (fun r => r.full_path != p)

/-- Rows actually changed by one mutation, as SQLite's `changes()` counts
them, split into (inserted, updated, deleted). -/
def mutChanges (db : Catalog) : MutOp → Nat × Nat × Nat
  | .ins r => (if pathPresent db r.full_path then 0 else 1, 0, 0)
  | .upd p _ _ _ _ => (0, (db.filter (fun r => r.full_path == p)).length, 0)
  | .del p => (0, 0, (db.filter (fun r => r.full_path == p)).length)

/-- Execute a list of mutations in order. -/
def applyMuts (db : Catalog) (ops : List MutOp) : Catalog :=
  ops.foldl applyMut db

/-- The paths of the rows a mutation list can insert (updates and deletes
never add rows). -/
def insPaths : List MutOp → List Str
  | [] => []
  | .ins r :: t => r.full_path :: insPaths t
  | .upd _ _ _ _ _ :: t => insPaths t
  | .del _ :: t => insPaths t

/-- Sum of count triples. -/
def addCnt (a b : Nat × Nat × Nat) : Nat × Nat × Nat :=
  (a.1 + b.1, a.2.1 + b.2.1, a.2.2 + b.2.2)

/-- Execute a list of mutations, also accumulating the change counts. -/
def applyCount (db : Catalog) : List MutOp → Catalog × (Nat × Nat × Nat)
  | [] => (db, (0, 0, 0))
  | m :: ms =>
      let rest := applyCount (applyMut db m) ms
      (rest.1, addCnt (mutChanges db m) rest.2)

/-- The path a mutation statement touches (its bound `full_path`). -/
def mutPath : MutOp → Str
  | .ins r => r.full_path
  | .upd q _ _ _ _ => q
  | .del q => q

/-- A (path, stat) pair on which `_index_entry` is a no-op against `db`: the
stored mtime equals the observed one, or it reads as 0 while either the
observed mtime is itself 0 (the skip branch) or a row for the path already
exists (so the `INSERT OR IGNORE` is ignored). -/
def Settled (db : Catalog) (p : Str) (st : StatInfo) : Prop :=
  getDbMtime db p = st.mtime ∨
    (getDbMtime db p = 0 ∧ (st.mtime = 0 ∨ pathPresent db p = true))

/-! ### The incremental reconciler (`_index_entry`) -/

/-- The last path segment, as `strrchr(path, '/') ? strrchr(path, '/') + 1 :
path` computes it. -/
def baseName (p : Str) : Str :=
  ((p.reverse.takeWhile (fun c => c != '/')).reverse)

/-- The `"dir"` / `"file"` tag derived from the stat mode. -/
def typeOf (st : StatInfo) : Str :=
  if st.isDir then str "dir" else str "file"

/-- The row `_index_entry` binds for an insert. -/
def recordOf (p : Str) (st : StatInfo) : FileRecord :=
  { full_path := p, name := baseName p, type := typeOf st
    size := st.size, mtime := st.mtime }

/-- The statements `_index_entry` executes for one (path, stat) pair, with the
mtime lookup's success a parameter (see `_get_db_mtime`): skip when the stored
mtime equals the observed one, `INSERT OR IGNORE` when the stored mtime is 0,
`UPDATE` otherwise. -/
def indexEntryOpsF (ok : Bool) (db : Catalog) (p : Str) (st : StatInfo) : List MutOp :=
  let dbM := getDbMtimeF ok db p
  if dbM = st.mtime then []
  else if dbM = 0 then [.ins (recordOf p st)]
  else [.upd p (baseName p) (typeOf st) st.size st.mtime]

/-- `_index_entry` with the lookup succeeding (the normal path). -/
def indexEntryOps (db : Catalog) (p : Str) (st : StatInfo) : List MutOp :=
  indexEntryOpsF true db p st

/-- The catalog after `_index_entry` runs once. -/
def indexEntry (db : Catalog) (p : Str) (st : StatInfo) : Catalog :=
  applyMuts db (indexEntryOps db p st)

/-- The statements emitted by reconciling a list of (path, stat) pairs in
order, each against the catalog state left by its predecessors. -/
def visitsOps (db : Catalog) : List (Str × StatInfo) → List MutOp
  | [] => []
  | (p, st) :: vs =>
      let ops := indexEntryOps db p st
      ops ++ visitsOps (applyMuts db ops) vs

/-! ### Pruning (`_prune_stale_entries`) -/

/-- Does pruning target this path?  The `SELECT full_path FROM files WHERE
full_path LIKE ?` filter with pattern `root%`, and then a failing `stat`. -/
def pruneCondPath (fs : FS) (root : Str) (p : Str) : Bool :=
  likeMatch (root ++ ['%']) p && (fs.stat p).isNone

/-- Does pruning target this row?  (Determined by its path alone.) -/
def pruneCond (fs : FS) (root : Str) (r : FileRecord) : Bool :=
  pruneCondPath fs root r.full_path

/-- The `DELETE` statements `_prune_stale_entries` executes: one per enumerated
row whose `stat` fails. -/
def pruneOps (fs : FS) (root : Str) (db : Catalog) : List MutOp :=
  (db.filter (pruneCond fs root)).map (fun r => .del r.full_path)

/-! ### The walk (`_index_files_dynamic`) -/

/-- The child path `snprintf(path, MAX_PATH, "%s/%s", current, entry->d_name)`
builds (paths are modelled unbounded; the MAX_PATH truncation is out of
scope). -/
def childPath (current n : Str) : Str := current ++ '/' :: n

/-- Process the entries of one opened directory in `readdir` order: skip `.`
and `..`, skip excluded paths, `stat` the rest; return the (path, stat) pairs
handed to `_index_entry` in order, the directory paths pushed (in order), and
the number of recoverable `stat` errors logged. -/
def processEntries (fs : FS) (excl : List Str) (current : Str) :
    List Str → List (Str × StatInfo) × List Str × Nat
  | [] => ([], [], 0)
  | n :: ns =>
      if n == str "." || n == str ".." then processEntries fs excl current ns
      else if isExcluded excl (childPath current n) then
        processEntries fs excl current ns
      else
        match fs.stat (childPath current n) with
        | some st =>
            ((childPath current n, st) :: (processEntries fs excl current ns).1,
             (if st.isDir then [childPath current n] else [])
               ++ (processEntries fs excl current ns).2.1,
             (processEntries fs excl current ns).2.2)
        | none =>
            ((processEntries fs excl current ns).1,
             (processEntries fs excl current ns).2.1,
             (processEntries fs excl current ns).2.2 + 1)

/-- The frontier loop of `_index_files_dynamic`: pop a directory, try to open
it — on failure log a recoverable error and continue with the next frontier
entry — otherwise process its entries and push its subdirectories (the C code
pushes them in entry order onto the stack, so the reversed list goes on top of
the remaining frontier).  Returns the (path, stat) pairs handed to
`_index_entry`, in order, together with the recoverable error count; `none`
models a walk that does not terminate within `fuel` popped directories. -/
def walkLoop (fs : FS) (excl : List Str) :
    Nat → List Str → Option (List (Str × StatInfo) × Nat)
  | _, [] => some ([], 0)
  | 0, _ :: _ => none
  | fuel + 1, current :: rest =>
      match fs.listDir current with
      | none =>
          match walkLoop fs excl fuel rest with
          | some ve => some (ve.1, ve.2 + 1)
          | none => none
      | some names =>
          match walkLoop fs excl fuel
              ((processEntries fs excl current names).2.1.reverse ++ rest) with
          | some ve =>
              some ((processEntries fs excl current names).1 ++ ve.1,
                (processEntries fs excl current names).2.2 + ve.2)
          | none => none

/-- All mutation statements one `index` run executes between `BEGIN
TRANSACTION` and `COMMIT`: the reconciler's statements in walk order, then the
pruning deletes, each computed against the evolving in-transaction catalog. -/
def runMuts (fs : FS) (excl : List Str) (root : Str) (fuel : Nat)
    (db0 : Catalog) : Option (List MutOp) :=
  match walkLoop fs excl fuel [root] with
  | none => none
  | some ve =>
      let mv := visitsOps db0 ve.1
      some (mv ++ pruneOps fs root (applyMuts db0 mv))

/-- One `index` run over `root`: the catalog it leaves behind and the
(inserted, updated, deleted) row counts. -/
def indexRun (fs : FS) (excl : List Str) (root : Str) (fuel : Nat)
    (db0 : Catalog) : Option (Catalog × (Nat × Nat × Nat)) :=
  (runMuts fs excl root fuel db0).map (applyCount db0)

/-! ### The transaction boundary -/

/-- The SQL statements of a run at transaction granularity. -/
inductive SqlOp where
  | begin
  | commit
  | rollback
  | mut (m : MutOp)
deriving DecidableEq, Repr

/-- A database connection: the durably committed catalog, and the workspace of
an open transaction when one is active. -/
structure Conn where
  committed : Catalog
  txn : Option Catalog
deriving DecidableEq, Repr

/-- Executing one statement: `BEGIN` opens a workspace over the committed
state, `COMMIT` makes the workspace durable, `ROLLBACK` discards it, and
mutations act on the workspace while a transaction is open. -/
def applySql (c : Conn) : SqlOp → Conn
  | .begin => { committed := c.committed, txn := some c.committed }
  | .commit =>
      match c.txn with
      | some t => { committed := t, txn := none }
      | none => c
  | .rollback =>
      match c.txn with
      | some _ => { committed := c.committed, txn := none }
      | none => c
  | .mut m =>
      match c.txn with
      | some t => { committed := c.committed, txn := some (applyMut t m) }
      | none => { committed := applyMut c.committed m, txn := none }

/-- Execute a statement sequence. -/
def runSql (c : Conn) (ops : List SqlOp) : Conn :=
  ops.foldl applySql c

/-- The full statement trace of one `index` run: `BEGIN TRANSACTION`, every
insert/update/delete of the walk and the pruning pass, then `COMMIT`. -/
def runTrace (fs : FS) (excl : List Str) (root : Str) (fuel : Nat)
    (db0 : Catalog) : Option (List SqlOp) :=
  (runMuts fs excl root fuel db0).map
    (fun ms => SqlOp.begin :: (ms.map SqlOp.mut ++ [SqlOp.commit]))

/-! ### The frontier stack's capacity and its allocation failures

`_index_files_dynamic` allocates the frontier stack with room for 1000
entries and doubles the capacity with `realloc` whenever a push finds
`top >= capacity`.  Each (re)allocation can fail: the initial `malloc`
failure returns before `BEGIN TRANSACTION`; a failed `realloc` mid-walk
executes `ROLLBACK` and returns.  In both cases `main` continues and returns
0.  The walk below threads the capacity and an allocation oracle `grow`
(whether the k-th `realloc` succeeds); a failed `strdup` of a single path is
logged and skipped in the source and is not modelled by the oracle. -/

/-- The initial frontier-stack capacity (`malloc(1000 * sizeof(char *))`). -/
def initialCapacity : Nat := 1000

/-- Allocation state of the frontier stack: current capacity, and how many
`realloc` calls have been attempted so far. -/
structure AllocSt where
  cap : Nat
  gidx : Nat
deriving DecidableEq, Repr

/-- Outcome of processing one directory's entries under the capacity model:
the reconciler calls made, the directories pushed, the recoverable errors
logged, the allocation state, and whether a failed `realloc` aborted the
walk (the triggering entry was already reconciled; the rest of the directory
is not processed). -/
structure PEOut where
  visits : List (Str × StatInfo)
  dirs : List Str
  errs : Nat
  alloc : AllocSt
  aborted : Bool
deriving DecidableEq, Repr

/-- Prepend a reconciled entry (and, for a directory, its push). -/
def PEOut.addVisit (v : Str × StatInfo) (isdir : Bool) (r : PEOut) : PEOut :=
  ⟨v :: r.visits, (if isdir then [v.1] else []) ++ r.dirs, r.errs, r.alloc,
    r.aborted⟩

/-- Count one recoverable error. -/
def PEOut.addErr (r : PEOut) : PEOut :=
  ⟨r.visits, r.dirs, r.errs + 1, r.alloc, r.aborted⟩

/-- `processEntries` with the frontier capacity made explicit: `stackLen` is
the number of paths currently on the stack (`top`); before each push, if
`stackLen ≥ cap` the stack is grown — and if that `realloc` fails the walk
aborts. -/
def processEntriesA (fs : FS) (excl : List Str) (grow : Nat → Bool)
    (current : Str) : List Str → Nat → AllocSt → PEOut
  | [], _, a => ⟨[], [], 0, a, false⟩
  | n :: ns, stackLen, a =>
      if n == str "." || n == str ".." then
        processEntriesA fs excl grow current ns stackLen a
      else if isExcluded excl (childPath current n) then
        processEntriesA fs excl grow current ns stackLen a
      else
        match fs.stat (childPath current n) with
        | none => (processEntriesA fs excl grow current ns stackLen a).addErr
        | some st =>
            if st.isDir then
              if stackLen ≥ a.cap then
                if grow a.gidx then
                  PEOut.addVisit (childPath current n, st) true
                    (processEntriesA fs excl grow current ns (stackLen + 1)
                      ⟨a.cap * 2, a.gidx + 1⟩)
                else
                  ⟨[(childPath current n, st)], [], 0,
                    ⟨a.cap * 2, a.gidx + 1⟩, true⟩
              else
                PEOut.addVisit (childPath current n, st) true
                  (processEntriesA fs excl grow current ns (stackLen + 1) a)
            else
              PEOut.addVisit (childPath current n, st) false
                (processEntriesA fs excl grow current ns stackLen a)

/-- Outcome of the capacity-aware walk: completed with visits and error
count, or aborted by a failed frontier-stack `realloc` after the listed
visits. -/
inductive WalkOut where
  | done (vs : List (Str × StatInfo)) (e : Nat)
  | grewFail (vs : List (Str × StatInfo))
deriving DecidableEq, Repr

/-- The frontier loop with the capacity model. -/
def walkLoopA (fs : FS) (excl : List Str) (grow : Nat → Bool) :
    Nat → List Str → AllocSt → Option WalkOut
  | _, [], _ => some (.done [] 0)
  | 0, _ :: _, _ => none
  | fuel + 1, current :: rest, a =>
      match fs.listDir current with
      | none =>
          match walkLoopA fs excl grow fuel rest a with
          | some (.done vs e) => some (.done vs (e + 1))
          | some (.grewFail vs) => some (.grewFail vs)
          | none => none
      | some names =>
          if (processEntriesA fs excl grow current names rest.length a).aborted then
            some (.grewFail
              (processEntriesA fs excl grow current names rest.length a).visits)
          else
            match walkLoopA fs excl grow fuel
                ((processEntriesA fs excl grow current names rest.length a).dirs.reverse
                  ++ rest)
                (processEntriesA fs excl grow current names rest.length a).alloc with
            | some (.done vs e) =>
                some (.done
                  ((processEntriesA fs excl grow current names rest.length a).visits
                    ++ vs)
                  ((processEntriesA fs excl grow current names rest.length a).errs
                    + e))
            | some (.grewFail vs) =>
                some (.grewFail
                  ((processEntriesA fs excl grow current names rest.length a).visits
                    ++ vs))
            | none => none

/-- The SQL statement trace of the `index` command under the allocation
model: a failed initial `malloc` issues no statement at all (the function
returns before `BEGIN TRANSACTION`); a completed walk runs
`BEGIN`–mutations–pruning–`COMMIT`; a walk aborted by a failed `realloc`
runs `BEGIN`, the mutations made so far, then `ROLLBACK` (no pruning). -/
def runTraceA (mallocOk : Bool) (grow : Nat → Bool) (fs : FS)
    (excl : List Str) (root : Str) (fuel : Nat) (db0 : Catalog) :
    Option (List SqlOp) :=
  if mallocOk then
    match walkLoopA fs excl grow fuel [root] ⟨initialCapacity, 0⟩ with
    | none => none
    | some (.done vs _) =>
        some (SqlOp.begin ::
          ((visitsOps db0 vs
            ++ pruneOps fs root (applyMuts db0 (visitsOps db0 vs))).map SqlOp.mut
          ++ [SqlOp.commit]))
    | some (.grewFail vs) =>
        some (SqlOp.begin ::
          ((visitsOps db0 vs).map SqlOp.mut ++ [SqlOp.rollback]))
  else some []

/-- The `index` command end to end, as `main` drives it: the connection
state after executing the run's statement trace, and the process exit
status — `main` returns 0 after `LOG_EXECUTION(_index_files_dynamic(...))`
whether or not the run aborted, so the status is 0 on every modelled path. -/
def indexCommand (mallocOk : Bool) (grow : Nat → Bool) (fs : FS)
    (excl : List Str) (root : Str) (fuel : Nat) (db0 : Catalog) :
    Option (Conn × Nat) :=
  (runTraceA mallocOk grow fs excl root fuel db0).map
    (fun tr => (runSql { committed := db0, txn := none } tr, 0))

/-! ### Search (`_search_files`) -/

/-- The `LIKE` pattern `'%<lowered pattern>%'` interpolated into the query. -/
def searchPattern (pat : Str) : Str :=
  '%' :: (toLowerStr pat ++ ['%'])

/-- The `WHERE` clause: `lower(name) LIKE '%p%' OR lower(full_path) LIKE
'%p%'`. -/
def searchMatch (pat : Str) (r : FileRecord) : Bool :=
  likeMatch (searchPattern pat) (toLowerStr r.name) ||
    likeMatch (searchPattern pat) (toLowerStr r.full_path)

/-- `ORDER BY mtime DESC`: row `a` may precede row `b` when `b.mtime ≤
a.mtime`. -/
def recGe (a b : FileRecord) : Prop := b.mtime ≤ a.mtime

instance : DecidableRel recGe := fun a b => inferInstanceAs (Decidable (b.mtime ≤ a.mtime))

instance : IsTotal FileRecord recGe := ⟨fun a b => le_total b.mtime a.mtime⟩

instance : IsTrans FileRecord recGe := ⟨fun _ _ _ h1 h2 => le_trans h2 h1⟩

/-- `_search_files`: lowercase the pattern, keep the rows whose lowered name
or lowered path matches the interpolated `LIKE` pattern, order them by mtime
descending (ties in a fixed deterministic order), and return at most 100. -/
def searchFiles (db : Catalog) (pat : Str) : List FileRecord :=
  ((db.filter (searchMatch pat)).insertionSort recGe).take 100

/-- The rows the specification says a pattern should match: lowered name or
lowered path contains the lowered pattern as a (plain) substring. -/
def specMatches (db : Catalog) (pat : Str) : Catalog :=
  db.filter (fun r =>
    containsSub (toLowerStr pat) (toLowerStr r.name) ||
      containsSub (toLowerStr pat) (toLowerStr r.full_path))

/-! ### Concrete fixtures used by witnesses and counterexamples -/

/-- A filesystem where every `stat` and every directory open fails. -/
def fsNone : FS where
  stat := fun _ => none
  listDir := fun _ => none

/-- A small filesystem: `/r` holds file `a` and directory `d`; `/r/d` holds
file `b`. -/
def fsW : FS where
  stat := fun p =>
    if p = str "/r/a" then some ⟨false, 3, 5⟩
    else if p = str "/r/d" then some ⟨true, 0, 7⟩
    else if p = str "/r/d/b" then some ⟨false, 1, 9⟩
    else none
  listDir := fun p =>
    if p = str "/r" then some [str "a", str "d", str "."]
    else if p = str "/r/d" then some [str "b"]
    else none

/-- The catalog `fsW` yields when indexed from an empty catalog. -/
def dbW : Catalog :=
  [recordOf (str "/r/a") ⟨false, 3, 5⟩,
   recordOf (str "/r/d") ⟨true, 0, 7⟩,
   recordOf (str "/r/d/b") ⟨false, 1, 9⟩]

/-- The mutation statements indexing `fsW` from an empty catalog executes. -/
def msW : List MutOp :=
  [MutOp.ins (recordOf (str "/r/a") ⟨false, 3, 5⟩),
   MutOp.ins (recordOf (str "/r/d") ⟨true, 0, 7⟩),
   MutOp.ins (recordOf (str "/r/d/b") ⟨false, 1, 9⟩)]

/-- The full statement trace of that run. -/
def trW : List SqlOp :=
  SqlOp.begin :: (msW.map SqlOp.mut ++ [SqlOp.commit])

/-- The (path, stat) pairs the walk of `fsW` hands to the reconciler. -/
def visW : List (Str × StatInfo) :=
  [(str "/r/a", ⟨false, 3, 5⟩), (str "/r/d", ⟨true, 0, 7⟩),
   (str "/r/d/b", ⟨false, 1, 9⟩)]

/-- The mutation statements of indexing `fsW` with `d` excluded. -/
def opsW6 : List MutOp :=
  [MutOp.ins (recordOf (str "/r/a") ⟨false, 3, 5⟩)]

/-- A single catalog row at path `/a/q`. -/
def rowAQ : FileRecord :=
  { full_path := str "/a/q", name := str "q", type := str "file"
    size := 1, mtime := 3 }

/-- A single catalog row named `x` at path `/r/x`. -/
def rowX : FileRecord :=
  { full_path := str "/r/x", name := str "x", type := str "file"
    size := 1, mtime := 4 }

/-- A filesystem whose root directory lists 1001 identically-named
subdirectory entries — enough pending pushes to overflow the initial
frontier capacity of 1000 and force a `realloc`. -/
def fsBig : FS where
  stat := fun _ => some ⟨true, 0, 1⟩
  listDir := fun p =>
    if p = str "/r" then some (List.replicate 1001 (str "d")) else none

/-- The (path, stat) pairs the walk of `fsBig` reconciles before the failed
`realloc` aborts it: the 1000 entries that fit plus the one whose push
triggers the grow. -/
def visBig : List (Str × StatInfo) :=
  List.replicate 1001 (str "/r/d", ⟨true, 0, 1⟩)

/-- A catalog with two `project` rows and an unrelated `readme` row. -/
def dbS : Catalog :=
  [recordOf (str "/r/projectA") ⟨false, 1, 100⟩,
   recordOf (str "/r/projectB") ⟨false, 1, 200⟩,
   recordOf (str "/r/readme") ⟨false, 1, 50⟩]

/-! ## Basic catalog lemmas -/

theorem pathPresent_eq_false_iff (db : Catalog) (p : Str) :
    pathPresent db p = false ↔ ∀ r ∈ db, r.full_path ≠ p := by
  simp [pathPresent, List.any_eq_true]

theorem getDbMtime_of_absent (db : Catalog) (p : Str)
    (h : pathPresent db p = false) : getDbMtime db p = 0 := by
  have hf : db.find? (fun r => r.full_path == p) = none := by
    rw [List.find?_eq_none]
    intro r hr
    simp only [beq_iff_eq]
    exact (pathPresent_eq_false_iff db p).1 h r hr
  simp [getDbMtime, hf]

theorem pathPresent_filter_ne (db : Catalog) (p : Str) :
    pathPresent (db.filter (fun r => r.full_path != p)) p = false := by
  rw [pathPresent_eq_false_iff]
  intro r hr
  have := (List.mem_filter.1 hr).2
  simpa using this

/-! ## C1: the reconciler's three-way decision -/

/-- **C1**: for a (path, stat) pair handed to `_index_entry`, with `stored`
the catalog's mtime for the path and `observed` the stat mtime (the cases
read in order, so an equal pair — including the absent/epoch-0 pair — is a
no-op): if `stored = observed` the catalog is left unchanged; if the record
is absent (so `stored = 0`) and the observed mtime differs, a new record with
the observed name, kind, size and mtime is inserted; if `stored` is non-zero
and differs, the existing record's mutable fields are updated in place with
the path unchanged. -/
theorem C1_reconciler_cases (db : Catalog) (p : Str) (st : StatInfo) :
    (getDbMtime db p = st.mtime → indexEntry db p st = db) ∧
    (pathPresent db p = false → st.mtime ≠ 0 →
      indexEntry db p st = db ++ [recordOf p st]) ∧
    (getDbMtime db p ≠ 0 → getDbMtime db p ≠ st.mtime →
      indexEntry db p st =
        db.map (fun r =>
          if r.full_path == p then
            { full_path := r.full_path, name := baseName p, type := typeOf st
              size := st.size, mtime := st.mtime }
          else r)) := by
  refine ⟨?_, ?_, ?_⟩
  · intro h
    simp [indexEntry, indexEntryOps, indexEntryOpsF, getDbMtimeF, h, applyMuts]
  · intro habs hne
    have h0 : getDbMtime db p = 0 := getDbMtime_of_absent db p habs
    have hne0 : (0 : Int) ≠ st.mtime := fun h => hne h.symm
    have hpath : pathPresent db (recordOf p st).full_path = false := habs
    simp [indexEntry, indexEntryOps, indexEntryOpsF, getDbMtimeF, h0, hne0,
      applyMuts, applyMut, hpath]
  · intro hnz hne
    simp [indexEntry, indexEntryOps, indexEntryOpsF, getDbMtimeF, hne, hnz,
      applyMuts, applyMut]

/-- Witness for C1: the skip, insert and update branches each taken at a
concrete catalog/stat pair. -/
theorem C1_witness :
    indexEntry [rowX] (str "/r/x") ⟨false, 1, 4⟩ = [rowX] ∧
    indexEntry [] (str "/n") ⟨false, 2, 6⟩ = [] ++ [recordOf (str "/n") ⟨false, 2, 6⟩] ∧
    indexEntry [rowX] (str "/r/x") ⟨false, 2, 6⟩ =
      [rowX].map (fun r =>
        if r.full_path == str "/r/x" then
          { full_path := r.full_path, name := baseName (str "/r/x")
            type := typeOf ⟨false, 2, 6⟩, size := 2, mtime := 6 }
        else r) :=
  ⟨(C1_reconciler_cases [rowX] (str "/r/x") ⟨false, 1, 4⟩).1 (by decide),
   (C1_reconciler_cases [] (str "/n") ⟨false, 2, 6⟩).2.1 (by decide) (by decide),
   (C1_reconciler_cases [rowX] (str "/r/x") ⟨false, 2, 6⟩).2.2 (by decide) (by decide)⟩

/-! ## C7: unreadable directories are recoverable -/

/-- **C7**: when a frontier entry fails to open as a directory, the walk
records one recoverable error and continues with the remaining frontier
unchanged — the traversal is never aborted by a bad directory (the result is
exactly the walk of the rest of the frontier, plus one logged error). -/
theorem C7_unreadable_dir_recoverable (fs : FS) (excl : List Str) (fuel : Nat)
    (d : Str) (rest : List Str) (h : fs.listDir d = none) :
    walkLoop fs excl (fuel + 1) (d :: rest)
      = (walkLoop fs excl fuel rest).map (fun ve => (ve.1, ve.2 + 1)) := by
  simp only [walkLoop, h]
  cases walkLoop fs excl fuel rest <;> simp

/-- Witness for C7 at a filesystem where the popped directory cannot be
opened. -/
theorem C7_witness :
    walkLoop fsNone [] (0 + 1) [str "/bad"]
      = (walkLoop fsNone [] 0 []).map (fun ve => (ve.1, ve.2 + 1)) :=
  C7_unreadable_dir_recoverable fsNone [] 0 (str "/bad") [] rfl

/-! ## C10: a failed mtime lookup reads as "absent" -/

/-- **C10**: `_get_db_mtime` is total: when the query fails to prepare (or to
yield a row) it returns 0, exactly what it returns for an absent record, so a
store-level read error is indistinguishable from "record absent" and (for a
non-zero observed mtime) sends `_index_entry` into the insert branch instead
of surfacing an error. -/
theorem C10_lookup_failure_reads_absent (db : Catalog) (p : Str)
    (st : StatInfo) (hm : st.mtime ≠ 0) :
    getDbMtimeF false db p = 0 ∧
    getDbMtimeF false db p
      = getDbMtimeF true (db.filter (fun r => r.full_path != p)) p ∧
    indexEntryOpsF false db p st = [MutOp.ins (recordOf p st)] := by
  refine ⟨rfl, ?_, ?_⟩
  · have habs := pathPresent_filter_ne db p
    simp [getDbMtimeF, getDbMtime_of_absent _ _ habs]
  · have hne0 : (0 : Int) ≠ st.mtime := fun h => hm h.symm
    simp [indexEntryOpsF, getDbMtimeF, hne0]

/-- Witness for C10 at a concrete catalog that does hold a row for the path:
the failed lookup still reads 0 and the insert branch is taken. -/
theorem C10_witness :
    getDbMtimeF false [rowX] (str "/r/x") = 0 ∧
    getDbMtimeF false [rowX] (str "/r/x")
      = getDbMtimeF true ([rowX].filter (fun r => r.full_path != str "/r/x")) (str "/r/x") ∧
    indexEntryOpsF false [rowX] (str "/r/x") ⟨false, 2, 6⟩
      = [MutOp.ins (recordOf (str "/r/x") ⟨false, 2, 6⟩)] :=
  C10_lookup_failure_reads_absent [rowX] (str "/r/x") ⟨false, 2, 6⟩ (by decide)

/-! ## C3: what pruning deletes -/

theorem applyMuts_dels (L : List Str) (db : Catalog) :
    applyMuts db (L.map MutOp.del)
      = db.filter (fun r => !(L.any (fun q => r.full_path == q))) := by
  induction L generalizing db with
  | nil => simp [applyMuts]
  | cons q L ih =>
      have hstep : applyMuts db ((q :: L).map MutOp.del)
          = applyMuts (db.filter (fun r => r.full_path != q)) (L.map MutOp.del) := rfl
      rw [hstep, ih, List.filter_filter]
      apply List.filter_congr
      intro r _
      simp [Bool.not_or, bne, Bool.and_comm]

theorem prune_apply (fs : FS) (root : Str) (db : Catalog) :
    applyMuts db (pruneOps fs root db)
      = db.filter (fun r => !(pruneCond fs root r)) := by
  have hmm : pruneOps fs root db
      = ((db.filter (pruneCond fs root)).map (fun r => r.full_path)).map MutOp.del := by
    rw [List.map_map]; rfl
  rw [hmm, applyMuts_dels]
  apply List.filter_congr
  intro r hr
  have key : (((db.filter (pruneCond fs root)).map (fun r => r.full_path)).any
      (fun q => r.full_path == q)) = pruneCond fs root r := by
    cases hc : pruneCond fs root r with
    | true =>
        apply List.any_eq_true.2
        exact ⟨r.full_path, List.mem_map.2 ⟨r, List.mem_filter.2 ⟨hr, hc⟩, rfl⟩, by simp⟩
    | false =>
        apply List.any_eq_false.2
        intro x hx hbeq
        obtain ⟨s, hs, hxs⟩ := List.mem_map.1 hx
        have hcs : pruneCond fs root s = true := (List.mem_filter.1 hs).2
        have hpq : r.full_path = s.full_path := by
          rw [hxs]
          simpa using hbeq
        have : pruneCond fs root r = true := by
          unfold pruneCond at hcs ⊢
          rw [hpq]
          exact hcs
        rw [this] at hc
        exact Bool.noConfusion hc
  rw [key]

/-- **C3** amended: after the walk, pruning enumerates exactly the catalog
rows whose path matches the SQLite `LIKE` pattern `root%` — a prefix
comparison that is case-insensitive on ASCII letters, with any `%`/`_` inside
the root acting as wildcards — stats each one, and deletes a row if and only
if that stat fails; every non-matching row and every matching row whose stat
succeeds is left unchanged (the claim's case-sensitive "has R as a prefix"
reading is refuted by `C3_counterexample`). -/
theorem C3_prune_deletes_iff_like_and_stale (fs : FS) (root : Str)
    (db : Catalog) :
    applyMuts db (pruneOps fs root db)
      = db.filter (fun r =>
          !(likeMatch (root ++ ['%']) r.full_path && (fs.stat r.full_path).isNone)) :=
  prune_apply fs root db

/-- **C3** counterexample: with root `/A`, a catalog row at `/a/q` (which does
not have `/A` as a prefix) whose stat fails is nevertheless deleted by the
index run, because SQLite `LIKE` compares ASCII letters case-insensitively. -/
theorem C3_counterexample :
    indexRun fsNone [] (str "/A") 1 [rowAQ] = some ([], (0, 0, 1)) ∧
    startsWithChars (str "/A") (str "/a/q") = false := by
  exact ⟨by decide, by decide⟩

/-! ## C2: one all-or-nothing transaction per run -/

theorem runSql_muts (ms : List MutOp) (c t : Catalog) :
    runSql ⟨c, some t⟩ (ms.map SqlOp.mut) = ⟨c, some (applyMuts t ms)⟩ := by
  induction ms generalizing t with
  | nil => rfl
  | cons m ms ih =>
      have hstep : runSql (⟨c, some t⟩ : Conn) ((m :: ms).map SqlOp.mut)
          = runSql ⟨c, some (applyMut t m)⟩ (ms.map SqlOp.mut) := rfl
      rw [hstep, ih]
      rfl

theorem applyCount_fst (db : Catalog) (ops : List MutOp) :
    (applyCount db ops).1 = applyMuts db ops := by
  induction ops generalizing db with
  | nil => rfl
  | cons m ms ih =>
      show (applyCount (applyMut db m) ms).1 = applyMuts db (m :: ms)
      rw [ih]
      rfl

/-- **C2**: all inserts, updates and deletes of one `index` run execute
between `BEGIN TRANSACTION` and the final `COMMIT`: for every proper prefix
of the run's statement trace (the process interrupted anywhere before the
commit point), the committed catalog still equals its pre-run state, and only
the complete trace commits exactly the run's final catalog. -/
theorem C2_run_is_single_transaction (fs : FS) (excl : List Str) (root : Str)
    (fuel : Nat) (db0 : Catalog) (tr : List SqlOp)
    (h : runTrace fs excl root fuel db0 = some tr) :
    (∀ k, k < tr.length → (runSql ⟨db0, none⟩ (tr.take k)).committed = db0) ∧
    ∃ dbf cnt, indexRun fs excl root fuel db0 = some (dbf, cnt) ∧
      runSql ⟨db0, none⟩ tr = ⟨dbf, none⟩ := by
  obtain ⟨ms, hms, htr⟩ : ∃ ms, runMuts fs excl root fuel db0 = some ms ∧
      tr = SqlOp.begin :: (ms.map SqlOp.mut ++ [SqlOp.commit]) := by
    unfold runTrace at h
    cases hr : runMuts fs excl root fuel db0 with
    | none => rw [hr] at h; simp at h
    | some ms =>
        rw [hr] at h
        simp only [Option.map_some'] at h
        exact ⟨ms, rfl, (Option.some.inj h).symm⟩
  subst htr
  constructor
  · intro k hk
    match k with
    | 0 => rfl
    | k + 1 =>
        have hk2 : k ≤ ms.length := by
          simp only [List.length_cons, List.length_append, List.length_map,
            List.length_nil] at hk
          omega
        have hk3 : k ≤ (ms.map SqlOp.mut).length := by
          simpa using hk2
        rw [List.take_succ_cons, List.take_append_of_le_length hk3,
          ← List.map_take]
        show (runSql (applySql ⟨db0, none⟩ SqlOp.begin)
          ((ms.take k).map SqlOp.mut)).committed = db0
        rw [show applySql (⟨db0, none⟩ : Conn) SqlOp.begin
            = (⟨db0, some db0⟩ : Conn) from rfl]
        rw [runSql_muts]
  · refine ⟨applyMuts db0 ms, (applyCount db0 ms).2, ?_, ?_⟩
    · unfold indexRun
      rw [hms]
      simp only [Option.map_some']
      have : applyCount db0 ms = (applyMuts db0 ms, (applyCount db0 ms).2) := by
        rw [← applyCount_fst]
      rw [this]
    · show runSql ⟨db0, none⟩
        ((SqlOp.begin :: ms.map SqlOp.mut) ++ [SqlOp.commit]) = _
      rw [show runSql (⟨db0, none⟩ : Conn)
          ((SqlOp.begin :: ms.map SqlOp.mut) ++ [SqlOp.commit])
          = runSql (runSql ⟨db0, none⟩ (SqlOp.begin :: ms.map SqlOp.mut))
              [SqlOp.commit] from List.foldl_append _ _ _ _]
      rw [show runSql (⟨db0, none⟩ : Conn) (SqlOp.begin :: ms.map SqlOp.mut)
          = runSql ⟨db0, some db0⟩ (ms.map SqlOp.mut) from rfl]
      rw [runSql_muts]
      rfl

/-- Witness for C2: the concrete trace of indexing `fsW` from an empty
catalog; stopping after three of its five statements leaves the committed
catalog empty, while the full trace commits the indexed catalog. -/
theorem C2_witness :
    (runSql ⟨[], none⟩ (trW.take 3)).committed = [] ∧
    runSql ⟨[], none⟩ trW = ⟨dbW, none⟩ := by
  have H := C2_run_is_single_transaction fsW [] (str "/r") 5 [] trW (by decide)
  refine ⟨H.1 3 (by decide), ?_⟩
  obtain ⟨dbf, cnt, h1, h2⟩ := H.2
  have h3 : indexRun fsW [] (str "/r") 5 [] = some (dbW, (3, 0, 0)) := by decide
  rw [h1] at h3
  have h4 := Option.some.inj h3
  have hdb : dbf = dbW := congrArg Prod.fst h4
  rw [hdb] at h2
  exact h2

/-! ## Which paths a mutation list can create -/

theorem insPaths_append (l1 l2 : List MutOp) :
    insPaths (l1 ++ l2) = insPaths l1 ++ insPaths l2 := by
  induction l1 with
  | nil => rfl
  | cons m t ih => cases m <;> simp [insPaths, ih]

theorem insPaths_cons (m : MutOp) (t : List MutOp) :
    insPaths (m :: t) = insPaths [m] ++ insPaths t := by
  cases m <;> rfl

theorem paths_applyMut (db : Catalog) (m : MutOp) (r : FileRecord)
    (hr : r ∈ applyMut db m) :
    r.full_path ∈ db.map (fun x => x.full_path) ∨ r.full_path ∈ insPaths [m] := by
  cases m with
  | ins s =>
      by_cases hp : pathPresent db s.full_path
      · left
        simp only [applyMut, if_pos hp] at hr
        exact List.mem_map.2 ⟨r, hr, rfl⟩
      · simp only [applyMut, if_neg hp, List.mem_append, List.mem_singleton] at hr
        cases hr with
        | inl h => exact Or.inl (List.mem_map.2 ⟨r, h, rfl⟩)
        | inr h => right; simp [insPaths, h]
  | upd p n t sz mt =>
      left
      simp only [applyMut] at hr
      obtain ⟨s, hs, hfs⟩ := List.mem_map.1 hr
      refine List.mem_map.2 ⟨s, hs, ?_⟩
      rw [← hfs]
      by_cases h : (s.full_path == p) = true
      · simp [h]
      · simp [h]
  | del p =>
      left
      exact List.mem_map.2 ⟨r, (List.mem_filter.1 hr).1, rfl⟩

theorem paths_applyMuts (ops : List MutOp) (db : Catalog) (r : FileRecord)
    (hr : r ∈ applyMuts db ops) :
    r.full_path ∈ db.map (fun x => x.full_path) ∨ r.full_path ∈ insPaths ops := by
  induction ops generalizing db with
  | nil => exact Or.inl (List.mem_map.2 ⟨r, hr, rfl⟩)
  | cons m t ih =>
      have hr2 : r ∈ applyMuts (applyMut db m) t := hr
      rcases ih (applyMut db m) hr2 with h | h
      · obtain ⟨s, hs, hsp⟩ := List.mem_map.1 h
        rcases paths_applyMut db m s hs with h2 | h2
        · left
          rw [← hsp]
          exact h2
        · right
          rw [insPaths_cons]
          exact List.mem_append.2 (Or.inl (hsp ▸ h2))
      · right
        rw [insPaths_cons]
        exact List.mem_append.2 (Or.inr h)

theorem insPaths_indexEntryOps (db : Catalog) (p : Str) (st : StatInfo) :
    insPaths (indexEntryOps db p st) ⊆ [p] := by
  unfold indexEntryOps indexEntryOpsF
  by_cases h1 : getDbMtimeF true db p = st.mtime
  · simp [h1, insPaths]
  · by_cases h2 : getDbMtimeF true db p = 0
    · have h3 : ¬((0 : Int) = st.mtime) := h2 ▸ h1
      simp [h1, h2, h3, insPaths, recordOf]
    · simp [h1, h2, insPaths]

theorem insPaths_visitsOps (db : Catalog) (vs : List (Str × StatInfo)) :
    insPaths (visitsOps db vs) ⊆ vs.map (fun v => v.1) := by
  induction vs generalizing db with
  | nil => simp [visitsOps, insPaths]
  | cons v vs ih =>
      cases v with
      | mk p st =>
          show insPaths (indexEntryOps db p st
            ++ visitsOps (applyMuts db (indexEntryOps db p st)) vs) ⊆ _
          rw [insPaths_append]
          intro x hx
          rcases List.mem_append.1 hx with h | h
          · have := insPaths_indexEntryOps db p st h
            simp only [List.mem_singleton] at this
            rw [this]
            simp only [List.map_cons]
            exact List.mem_cons_self _ _
          · have := ih (applyMuts db (indexEntryOps db p st)) h
            simp only [List.map_cons]
            exact List.mem_cons_of_mem _ this

theorem insPaths_pruneOps (fs : FS) (root : Str) (db : Catalog) :
    insPaths (pruneOps fs root db) = [] := by
  unfold pruneOps
  induction db.filter (pruneCond fs root) with
  | nil => rfl
  | cons r t ih => simpa [insPaths] using ih

/-! ## Facts about every visited (path, stat) pair -/

theorem processEntries_visits (fs : FS) (excl : List Str) (current : Str)
    (ns : List Str) (p : Str) (st : StatInfo)
    (h : (p, st) ∈ (processEntries fs excl current ns).1) :
    fs.stat p = some st ∧ isExcluded excl p = false ∧
      ∃ n, p = childPath current n := by
  induction ns with
  | nil => simp [processEntries] at h
  | cons n ns ih =>
      rw [processEntries] at h
      by_cases h1 : (n == str "." || n == str "..") = true
      · rw [if_pos h1] at h
        exact ih h
      · rw [if_neg h1] at h
        by_cases h2 : isExcluded excl (childPath current n) = true
        · rw [if_pos h2] at h
          exact ih h
        · rw [if_neg h2] at h
          cases hstat : fs.stat (childPath current n) with
          | none =>
              rw [hstat] at h
              exact ih h
          | some st2 =>
              rw [hstat] at h
              rcases List.mem_cons.1 h with he | hm
              · have hp : p = childPath current n := congrArg Prod.fst he
                have hst : st = st2 := congrArg Prod.snd he
                subst hp
                subst hst
                exact ⟨hstat, Bool.not_eq_true _ ▸ h2, n, rfl⟩
              · exact ih hm

theorem processEntries_dirs_sub (fs : FS) (excl : List Str) (current : Str)
    (ns : List Str) :
    (processEntries fs excl current ns).2.1
      ⊆ (processEntries fs excl current ns).1.map (fun v => v.1) := by
  induction ns with
  | nil =>
      intro d hd
      simp [processEntries] at hd
  | cons n ns ih =>
      rw [processEntries]
      by_cases h1 : (n == str "." || n == str "..") = true
      · rw [if_pos h1]
        exact ih
      · rw [if_neg h1]
        by_cases h2 : isExcluded excl (childPath current n) = true
        · rw [if_pos h2]
          exact ih
        · rw [if_neg h2]
          cases hstat : fs.stat (childPath current n) with
          | none => exact ih
          | some st2 =>
              intro d hd
              replace hd : d ∈ ((if st2.isDir then [childPath current n] else [])
                  ++ (processEntries fs excl current ns).2.1) := hd
              show d ∈ ((childPath current n, st2)
                :: (processEntries fs excl current ns).1).map (fun v => v.1)
              rcases List.mem_append.1 hd with hl | hr2
              · have hd2 : d = childPath current n := by
                  cases hdir : st2.isDir with
                  | false => rw [hdir] at hl; simp at hl
                  | true => rw [hdir] at hl; simpa using hl
                rw [hd2]
                simp only [List.map_cons]
                exact List.mem_cons_self _ _
              · simp only [List.map_cons]
                exact List.mem_cons_of_mem _ (ih hr2)

theorem walkLoop_visits_facts (fs : FS) (excl : List Str) (root : Str) :
    ∀ fuel stack vs e,
      (∀ s ∈ stack, root.length ≤ s.length) →
      walkLoop fs excl fuel stack = some (vs, e) →
      ∀ p st, (p, st) ∈ vs →
        fs.stat p = some st ∧ isExcluded excl p = false ∧
          root.length < p.length := by
  intro fuel
  induction fuel with
  | zero =>
      intro stack vs e hstk hw p st hmem
      cases stack with
      | nil =>
          have : vs = [] := by
            have := Option.some.inj hw
            exact (congrArg Prod.fst this).symm
          rw [this] at hmem
          simp at hmem
      | cons c cs => exact absurd hw (by simp [walkLoop])
  | succ fuel ih =>
      intro stack vs e hstk hw p st hmem
      cases stack with
      | nil =>
          have : vs = [] := by
            have := Option.some.inj hw
            exact (congrArg Prod.fst this).symm
          rw [this] at hmem
          simp at hmem
      | cons current rest =>
          rw [walkLoop] at hw
          cases hdir : fs.listDir current with
          | none =>
              rw [hdir] at hw
              replace hw : (match walkLoop fs excl fuel rest with
                  | some ve => some (ve.1, ve.2 + 1)
                  | none => none) = some (vs, e) := hw
              cases hrec : walkLoop fs excl fuel rest with
              | none => rw [hrec] at hw; exact absurd hw (by simp)
              | some ve =>
                  rw [hrec] at hw
                  simp only [Option.some.injEq] at hw
                  have hvs : vs = ve.1 := (congrArg Prod.fst hw).symm
                  rw [hvs] at hmem
                  exact ih rest ve.1 ve.2
                    (fun s hs => hstk s (List.mem_cons_of_mem _ hs))
                    (by rw [hrec]) p st hmem
          | some names =>
              rw [hdir] at hw
              replace hw : (match walkLoop fs excl fuel
                    ((processEntries fs excl current names).2.1.reverse ++ rest) with
                  | some ve =>
                      some ((processEntries fs excl current names).1 ++ ve.1,
                        (processEntries fs excl current names).2.2 + ve.2)
                  | none => none) = some (vs, e) := hw
              cases hrec : walkLoop fs excl fuel
                  ((processEntries fs excl current names).2.1.reverse ++ rest) with
              | none => rw [hrec] at hw; exact absurd hw (by simp)
              | some ve =>
                  rw [hrec] at hw
                  simp only [Option.some.injEq] at hw
                  have hvs : vs = (processEntries fs excl current names).1 ++ ve.1 :=
                    (congrArg Prod.fst hw).symm
                  rw [hvs] at hmem
                  rcases List.mem_append.1 hmem with hl | hr2
                  · obtain ⟨hstat, hexcl, n, hp⟩ :=
                      processEntries_visits fs excl current names p st hl
                    refine ⟨hstat, hexcl, ?_⟩
                    have hcur : root.length ≤ current.length :=
                      hstk current (List.mem_cons_self _ _)
                    rw [hp]
                    unfold childPath
                    rw [List.length_append]
                    simp only [List.length_cons]
                    omega
                  · refine ih _ ve.1 ve.2 ?_ (by rw [hrec]) p st hr2
                    intro s hs
                    rcases List.mem_append.1 hs with hsl | hsr
                    · have hsd : s ∈ (processEntries fs excl current names).2.1 :=
                        List.mem_reverse.1 hsl
                      have hsv := processEntries_dirs_sub fs excl current names hsd
                      obtain ⟨⟨q, st2⟩, hmem2, hqs⟩ := List.mem_map.1 hsv
                      have hq2 : q = s := hqs
                      obtain ⟨-, -, n, hp⟩ :=
                        processEntries_visits fs excl current names q st2 hmem2
                      have hcur : root.length ≤ current.length :=
                        hstk current (List.mem_cons_self _ _)
                      rw [← hq2, hp]
                      unfold childPath
                      rw [List.length_append]
                      simp only [List.length_cons]
                      omega
                    · exact hstk s (List.mem_cons_of_mem _ hsr)

/-! ## C9: the root itself never gets a catalog row -/

/-- **C9**: only child paths of the form `current/name` are handed to the
reconciler, never the root itself; consequently an index run starting from a
catalog with no row at the root leaves the catalog with no row at the root. -/
theorem C9_root_gets_no_row (fs : FS) (excl : List Str) (root : Str)
    (fuel : Nat) (db0 : Catalog) (vs : List (Str × StatInfo)) (e : Nat)
    (ops : List MutOp)
    (hw : walkLoop fs excl fuel [root] = some (vs, e))
    (hm : runMuts fs excl root fuel db0 = some ops)
    (h0 : pathPresent db0 root = false) :
    (∀ p st, (p, st) ∈ vs → p ≠ root) ∧
    pathPresent (applyMuts db0 ops) root = false := by
  have hfacts := walkLoop_visits_facts fs excl root fuel [root] vs e
    (by intro s hs; rw [List.mem_singleton.1 hs]) hw
  have hvne : ∀ p st, (p, st) ∈ vs → p ≠ root := by
    intro p st hmem heq
    have hl := (hfacts p st hmem).2.2
    rw [heq] at hl
    omega
  refine ⟨hvne, ?_⟩
  rw [pathPresent_eq_false_iff]
  intro r hr heq
  have hops : ops = visitsOps db0 vs
      ++ pruneOps fs root (applyMuts db0 (visitsOps db0 vs)) := by
    unfold runMuts at hm
    rw [hw] at hm
    exact (Option.some.inj hm).symm
  rcases paths_applyMuts ops db0 r hr with h | h
  · obtain ⟨s, hs, hsp⟩ := List.mem_map.1 h
    have : pathPresent db0 root = true := by
      apply List.any_eq_true.2
      exact ⟨s, hs, by rw [hsp, heq]; simp⟩
    rw [this] at h0
    exact Bool.noConfusion h0
  · rw [hops, insPaths_append, insPaths_pruneOps, List.append_nil] at h
    have := insPaths_visitsOps db0 vs h
    obtain ⟨⟨p, st⟩, hpv, hpe⟩ := List.mem_map.1 this
    have hp2 : p = r.full_path := hpe
    exact hvne p st hpv (by rw [hp2, heq])

/-- Witness for C9: the walk of `fsW` from root `/r` (its visit list, its
mutation list and the empty starting catalog evaluated concretely). -/
theorem C9_witness :
    str "/r/a" ≠ str "/r" ∧
    pathPresent (applyMuts [] msW) (str "/r") = false := by
  have H := C9_root_gets_no_row fsW [] (str "/r") 5 [] visW 0 msW
    (by decide) (by decide) (by decide)
  exact ⟨H.1 (str "/r/a") ⟨false, 3, 5⟩ (by decide), H.2⟩

/-! ## C6: exclusion policy -/

theorem startsWithChars_append (e p x : Str) (h : startsWithChars e p = true) :
    startsWithChars e (p ++ x) = true := by
  induction e generalizing p with
  | nil => rfl
  | cons a as ih =>
      cases p with
      | nil => exact absurd h (by simp [startsWithChars])
      | cons b bs =>
          simp only [List.cons_append, startsWithChars, Bool.and_eq_true] at h ⊢
          exact ⟨h.1, ih bs h.2⟩

theorem containsSub_nil (x : Str) : containsSub [] x = true := by
  cases x <;> simp [containsSub, startsWithChars]

theorem containsSub_append (e p x : Str) (h : containsSub e p = true) :
    containsSub e (p ++ x) = true := by
  induction p with
  | nil =>
      cases e with
      | nil => simpa using containsSub_nil x
      | cons a as => exact absurd h (by simp [containsSub, startsWithChars])
  | cons b bs ih =>
      simp only [containsSub, Bool.or_eq_true] at h
      rcases h with h | h
      · simp only [List.cons_append, containsSub, Bool.or_eq_true]
        exact Or.inl (startsWithChars_append e (b :: bs) x h)
      · simp only [List.cons_append, containsSub, Bool.or_eq_true]
        exact Or.inr (ih h)

theorem isExcluded_append (excl : List Str) (p x : Str)
    (h : isExcluded excl p = true) : isExcluded excl (p ++ x) = true := by
  simp only [isExcluded, List.any_eq_true] at h ⊢
  obtain ⟨e, he, hc⟩ := h
  exact ⟨e, he, containsSub_append e p x hc⟩

/-- **C6**: `_is_excluded` returns true exactly when some configured
exclusion substring occurs inside the path; and an index run over a
previously empty catalog leaves no record for any excluded path `p`, nor for
any of its descendants `p/...` (the walker never reaches them, since a
descendant's path contains `p` and hence the substring). -/
theorem C6_exclusion_policy (fs : FS) (excl : List Str) (root : Str)
    (fuel : Nat) (ops : List MutOp) (p : Str)
    (hm : runMuts fs excl root fuel [] = some ops)
    (hex : isExcluded excl p = true) :
    (∀ q, isExcluded excl q = true ↔ ∃ e ∈ excl, containsSub e q = true) ∧
    ∀ r ∈ applyMuts [] ops, r.full_path ≠ p ∧ ∀ t, r.full_path ≠ p ++ '/' :: t := by
  constructor
  · intro q
    simp [isExcluded, List.any_eq_true]
  · intro r hr
    obtain ⟨vs, e, hw⟩ : ∃ vs e, walkLoop fs excl fuel [root] = some (vs, e) := by
      unfold runMuts at hm
      cases hwk : walkLoop fs excl fuel [root] with
      | none => rw [hwk] at hm; exact absurd hm (by simp)
      | some ve => exact ⟨ve.1, ve.2, rfl⟩
    have hops : ops = visitsOps [] vs
        ++ pruneOps fs root (applyMuts [] (visitsOps [] vs)) := by
      unfold runMuts at hm
      rw [hw] at hm
      exact (Option.some.inj hm).symm
    have hpaths : r.full_path ∈ insPaths ops := by
      rcases paths_applyMuts ops [] r hr with h | h
      · simp at h
      · exact h
    rw [hops, insPaths_append, insPaths_pruneOps, List.append_nil] at hpaths
    have hvp := insPaths_visitsOps [] vs hpaths
    obtain ⟨⟨q, st⟩, hqv, hqe⟩ := List.mem_map.1 hvp
    have hq : q = r.full_path := hqe
    have hfacts := walkLoop_visits_facts fs excl root fuel [root] vs e
      (by intro s hs; rw [List.mem_singleton.1 hs]) hw
    have hnex : isExcluded excl r.full_path = false := by
      have := (hfacts q st hqv).2.1
      rwa [hq] at this
    constructor
    · intro heq
      rw [heq, hex] at hnex
      exact Bool.noConfusion hnex
    · intro t heq
      have hext : isExcluded excl (p ++ '/' :: t) = true :=
        isExcluded_append excl p ('/' :: t) hex
      rw [heq, hext] at hnex
      exact Bool.noConfusion hnex

/-- Witness for C6: excluding substring `d` while indexing `fsW` from an
empty catalog; the resulting single row is not the excluded path `/r/d`. -/
theorem C6_witness :
    (isExcluded [str "d"] (str "/r/d") = true ↔
      ∃ e ∈ [str "d"], containsSub e (str "/r/d") = true) ∧
    (recordOf (str "/r/a") ⟨false, 3, 5⟩).full_path ≠ str "/r/d" := by
  have H := C6_exclusion_policy fsW [str "d"] (str "/r") 5 opsW6 (str "/r/d")
    (by decide) (by decide)
  exact ⟨H.1 (str "/r/d"),
    (H.2 (recordOf (str "/r/a") ⟨false, 3, 5⟩) (by decide)).1⟩

/-! ## C4: search semantics -/

theorem toNat_ofNat_small (n : Nat) (h1 : 97 ≤ n) (h2 : n ≤ 122) :
    (Char.ofNat n).toNat = n := by
  have hv : n.isValidChar := Or.inl (by omega)
  simp only [Char.ofNat, hv, dif_pos, Char.ofNatAux, Char.toNat]
  simp [UInt32.toNat, BitVec.toNat_ofNatLt]

theorem asciiLower_idem (c : Char) : asciiLower (asciiLower c) = asciiLower c := by
  unfold asciiLower
  by_cases hu : 65 ≤ c.toNat ∧ c.toNat ≤ 90
  · rw [if_pos hu]
    have ht : (Char.ofNat (c.toNat + 32)).toNat = c.toNat + 32 :=
      toNat_ofNat_small _ (by omega) (by omega)
    rw [if_neg (by rw [ht]; omega)]
  · rw [if_neg hu, if_neg hu]

theorem likeChar_lower (a b : Char) :
    likeChar (asciiLower a) (asciiLower b) = (asciiLower a == asciiLower b) := by
  unfold likeChar
  rw [asciiLower_idem, asciiLower_idem]

theorem likeMatch_cons (c : Char) (ps s : Str) :
    likeMatch (c :: ps) s
      = if c = '%' then s.tails.any (likeMatch ps)
        else match s with
          | [] => false
          | b :: bs => (if c = '_' then true else likeChar c b) && likeMatch ps bs := rfl

theorem likeMatch_pct (ps s : Str) :
    likeMatch ('%' :: ps) s = s.tails.any (likeMatch ps) := by
  rw [likeMatch_cons, if_pos rfl]

theorem likeMatch_cons_nil (c : Char) (ps : Str) (hc : c ≠ '%') :
    likeMatch (c :: ps) [] = false := by
  rw [likeMatch_cons, if_neg hc]

theorem likeMatch_cons_cons (c : Char) (ps : Str) (b : Char) (bs : Str)
    (hc : c ≠ '%') :
    likeMatch (c :: ps) (b :: bs)
      = ((if c = '_' then true else likeChar c b) && likeMatch ps bs) := by
  rw [likeMatch_cons, if_neg hc]

theorem nil_mem_tails (s : Str) : [] ∈ s.tails := by
  induction s with
  | nil => simp
  | cons c t ih => rw [List.tails_cons]; exact List.mem_cons_of_mem _ ih

theorem any_congr_mem {a : Type} (l : List a) (f g : a → Bool)
    (h : ∀ x ∈ l, f x = g x) : l.any f = l.any g := by
  induction l with
  | nil => rfl
  | cons x t ih =>
      simp only [List.any_cons, h x (List.mem_cons_self x t)]
      rw [ih (fun y hy => h y (List.mem_cons_of_mem _ hy))]

theorem likeMatch_append_pct (p : Str) (hp : ∀ c ∈ p, c ≠ '%' ∧ c ≠ '_')
    (s : Str) : likeMatch (p ++ ['%']) s = startsWithCI p s := by
  induction p generalizing s with
  | nil =>
      rw [List.nil_append, likeMatch_pct]
      have : (s.tails.any (likeMatch [])) = true :=
        List.any_eq_true.2 ⟨[], nil_mem_tails s, rfl⟩
      rw [this]
      rfl
  | cons c cs ih =>
      obtain ⟨hc1, hc2⟩ := hp c (List.mem_cons_self _ _)
      have hps : ∀ x ∈ cs, x ≠ '%' ∧ x ≠ '_' :=
        fun x hx => hp x (List.mem_cons_of_mem _ hx)
      cases s with
      | nil => rw [List.cons_append, likeMatch_cons_nil _ _ hc1]; rfl
      | cons b bs =>
          rw [List.cons_append, likeMatch_cons_cons _ _ _ _ hc1, if_neg hc2,
            ih hps]
          rfl

theorem containsCI_tails (p s : Str) :
    s.tails.any (startsWithCI p) = containsCI p s := by
  induction s with
  | nil => simp [containsCI]
  | cons c t ih => rw [List.tails_cons, List.any_cons, ih]; rfl

theorem likeMatch_search (p : Str) (hp : ∀ c ∈ p, c ≠ '%' ∧ c ≠ '_')
    (s : Str) : likeMatch ('%' :: (p ++ ['%'])) s = containsCI p s := by
  rw [likeMatch_pct, ← containsCI_tails]
  exact any_congr_mem _ _ _ (fun t _ => likeMatch_append_pct p hp t)

theorem startsWithCI_lower (p s : Str) :
    startsWithCI (p.map asciiLower) (s.map asciiLower)
      = startsWithChars (p.map asciiLower) (s.map asciiLower) := by
  induction p generalizing s with
  | nil => cases s <;> rfl
  | cons a as ih =>
      cases s with
      | nil => rfl
      | cons b bs =>
          simp only [List.map_cons, startsWithCI, startsWithChars]
          rw [likeChar_lower, ih bs]

theorem containsCI_lower (p s : Str) :
    containsCI (p.map asciiLower) (s.map asciiLower)
      = containsSub (p.map asciiLower) (s.map asciiLower) := by
  induction s with
  | nil =>
      have h := startsWithCI_lower p []
      simp only [List.map_nil] at h ⊢
      exact h
  | cons b bs ih =>
      simp only [List.map_cons, containsCI, containsSub]
      rw [ih]
      have h := startsWithCI_lower p (b :: bs)
      simp only [List.map_cons] at h
      rw [h]

theorem asciiLower_eq_small (c0 m : Char) (hm : m.toNat < 97 ∨ 122 < m.toNat)
    (h : asciiLower c0 = m) : c0 = m := by
  unfold asciiLower at h
  by_cases hu : 65 ≤ c0.toNat ∧ c0.toNat ≤ 90
  · rw [if_pos hu] at h
    have ht := congrArg Char.toNat h
    rw [toNat_ofNat_small _ (by omega) (by omega)] at ht
    exact absurd ht (by rcases hm with hm | hm <;> omega)
  · rwa [if_neg hu] at h

theorem noMeta_toLower (pat : Str) (hp : ∀ c ∈ pat, c ≠ '%' ∧ c ≠ '_') :
    ∀ c ∈ toLowerStr pat, c ≠ '%' ∧ c ≠ '_' := by
  intro c hc
  obtain ⟨c0, hc0, hlc⟩ := List.mem_map.1 hc
  obtain ⟨h1, h2⟩ := hp c0 hc0
  constructor
  · intro he
    rw [he] at hlc
    exact h1 (asciiLower_eq_small c0 '%' (by decide) hlc)
  · intro he
    rw [he] at hlc
    exact h2 (asciiLower_eq_small c0 '_' (by decide) hlc)

theorem searchMatch_eq_spec (pat : Str)
    (hp : ∀ c ∈ pat, c ≠ '%' ∧ c ≠ '_') (r : FileRecord) :
    searchMatch pat r
      = (containsSub (toLowerStr pat) (toLowerStr r.name)
        || containsSub (toLowerStr pat) (toLowerStr r.full_path)) := by
  unfold searchMatch searchPattern
  rw [likeMatch_search (toLowerStr pat) (noMeta_toLower pat hp) (toLowerStr r.name)]
  rw [likeMatch_search (toLowerStr pat) (noMeta_toLower pat hp)
    (toLowerStr r.full_path)]
  unfold toLowerStr
  rw [containsCI_lower pat r.name, containsCI_lower pat r.full_path]

/-- **C4** amended: for patterns free of the `LIKE` metacharacters `%` and
`_` (and of the single quote, character 39, which would break the
string-interpolated query text), search lowercases the pattern and returns
exactly the rows whose lowercased name or lowercased path contains it as a
substring, ordered by `mtime` descending and capped at 100, the returned rows
having mtimes at least as large as every omitted match.  For patterns
containing metacharacters the claim fails (`C4_counterexample`): they are
interpolated into the `LIKE` pattern and keep their wildcard meaning. -/
theorem C4_search_substring_top100 (db : Catalog) (pat : Str)
    (hp : ∀ c ∈ pat, c ≠ '%' ∧ c ≠ '_' ∧ c.toNat ≠ 39) :
    searchFiles db pat = ((specMatches db pat).insertionSort recGe).take 100 ∧
    List.Sorted recGe (searchFiles db pat) ∧
    (searchFiles db pat).length = min 100 (specMatches db pat).length ∧
    (∀ x ∈ searchFiles db pat, x ∈ specMatches db pat) ∧
    (∀ x ∈ searchFiles db pat, ∀ y ∈ specMatches db pat,
      y ∉ searchFiles db pat → y.mtime ≤ x.mtime) := by
  have hp2 : ∀ c ∈ pat, c ≠ '%' ∧ c ≠ '_' :=
    fun c hc => ⟨(hp c hc).1, (hp c hc).2.1⟩
  have hfeq : db.filter (searchMatch pat) = specMatches db pat := by
    unfold specMatches
    apply List.filter_congr
    intro r _
    exact searchMatch_eq_spec pat hp2 r
  have heq : searchFiles db pat
      = ((specMatches db pat).insertionSort recGe).take 100 := by
    unfold searchFiles
    rw [hfeq]
  have hsorted : List.Sorted recGe ((specMatches db pat).insertionSort recGe) :=
    List.sorted_insertionSort recGe _
  have hperm := List.perm_insertionSort recGe (specMatches db pat)
  refine ⟨heq, ?_, ?_, ?_, ?_⟩
  · rw [heq]
    exact hsorted.sublist (List.take_sublist _ _)
  · rw [heq, List.length_take, hperm.length_eq]
  · intro x hx
    rw [heq] at hx
    exact hperm.mem_iff.1 (List.mem_of_mem_take hx)
  · intro x hx y hy hyn
    rw [heq] at hx hyn
    have hy2 : y ∈ (specMatches db pat).insertionSort recGe := hperm.mem_iff.2 hy
    rw [← List.take_append_drop 100 ((specMatches db pat).insertionSort recGe)]
      at hy2
    have hyd : y ∈ ((specMatches db pat).insertionSort recGe).drop 100 := by
      rcases List.mem_append.1 hy2 with h | h
      · exact absurd h hyn
      · exact h
    exact hsorted.rel_of_mem_take_of_mem_drop hx hyd

/-- **C4** counterexample: the pattern `_` is a `LIKE` metacharacter; at a
catalog holding one row named `x`, search returns that row although `_` is
not a substring of its lowered name or path — so search does not return
"exactly the records containing the pattern as a substring" for every
pattern. -/
theorem C4_counterexample :
    searchFiles [rowX] ['_'] = [rowX] ∧
    containsSub (toLowerStr ['_']) (toLowerStr rowX.name) = false ∧
    containsSub (toLowerStr ['_']) (toLowerStr rowX.full_path) = false := by
  exact ⟨by decide, by decide, by decide⟩

/-- Witness for C4 at the metacharacter-free pattern `project` over a
three-row catalog. -/
theorem C4_witness :
    searchFiles dbS (str "project")
      = ((specMatches dbS (str "project")).insertionSort recGe).take 100 ∧
    (searchFiles dbS (str "project")).length
      = min 100 (specMatches dbS (str "project")).length := by
  have H := C4_search_substring_top100 dbS (str "project") (by decide)
  exact ⟨H.1, H.2.2.1⟩

/-! ## C5: toolkit for the idempotence proof -/

theorem getDbMtime_cons (d : FileRecord) (t : Catalog) (p : Str) :
    getDbMtime (d :: t) p
      = if d.full_path == p then d.mtime else getDbMtime t p := by
  by_cases h : (d.full_path == p) = true
  · have hf : List.find? (fun r => r.full_path == p) (d :: t) = some d :=
      List.find?_cons_of_pos t h
    rw [if_pos h]
    unfold getDbMtime
    rw [hf]
  · have hf : List.find? (fun r => r.full_path == p) (d :: t)
        = List.find? (fun r => r.full_path == p) t :=
      List.find?_cons_of_neg t h
    rw [if_neg h]
    unfold getDbMtime
    rw [hf]

theorem pathPresent_cons (d : FileRecord) (t : Catalog) (p : Str) :
    pathPresent (d :: t) p = ((d.full_path == p) || pathPresent t p) := by
  simp [pathPresent]

theorem applyMuts_append (db : Catalog) (l1 l2 : List MutOp) :
    applyMuts db (l1 ++ l2) = applyMuts (applyMuts db l1) l2 :=
  List.foldl_append _ _ _ _

theorem addCnt_zero_left (c : Nat × Nat × Nat) : addCnt (0, 0, 0) c = c := by
  simp [addCnt]

theorem addCnt_assoc (a b c : Nat × Nat × Nat) :
    addCnt (addCnt a b) c = addCnt a (addCnt b c) := by
  simp [addCnt, Nat.add_assoc]

theorem applyCount_append (db : Catalog) (l1 l2 : List MutOp) :
    applyCount db (l1 ++ l2)
      = ((applyCount (applyMuts db l1) l2).1,
         addCnt (applyCount db l1).2 (applyCount (applyMuts db l1) l2).2) := by
  induction l1 generalizing db with
  | nil =>
      show applyCount db l2
        = ((applyCount db l2).1, addCnt (0, 0, 0) (applyCount db l2).2)
      rw [addCnt_zero_left]
  | cons m t ih =>
      show applyCount db (m :: (t ++ l2)) = _
      have h1 : applyCount db (m :: (t ++ l2))
          = ((applyCount (applyMut db m) (t ++ l2)).1,
             addCnt (mutChanges db m) (applyCount (applyMut db m) (t ++ l2)).2) := rfl
      rw [h1, ih (applyMut db m)]
      have h2 : applyCount db (m :: t)
          = ((applyCount (applyMut db m) t).1,
             addCnt (mutChanges db m) (applyCount (applyMut db m) t).2) := rfl
      have h3 : applyMuts db (m :: t) = applyMuts (applyMut db m) t := rfl
      rw [h2, h3, addCnt_assoc]

theorem getDbMtime_ne_zero_present (db : Catalog) (p : Str)
    (h : getDbMtime db p ≠ 0) : pathPresent db p = true := by
  by_cases hp : pathPresent db p = true
  · exact hp
  · exact absurd (getDbMtime_of_absent db p (Bool.not_eq_true _ ▸ hp)) h

theorem getDbMtime_append_ne (db : Catalog) (s : FileRecord) (p : Str)
    (hne : s.full_path ≠ p) : getDbMtime (db ++ [s]) p = getDbMtime db p := by
  induction db with
  | nil =>
      show getDbMtime [s] p = getDbMtime [] p
      rw [show ([s] : Catalog) = s :: [] from rfl, getDbMtime_cons,
        if_neg (by simpa using hne)]
  | cons d t ih =>
      show getDbMtime (d :: (t ++ [s])) p = _
      rw [getDbMtime_cons, getDbMtime_cons, ih]

theorem getDbMtime_append_absent (db : Catalog) (s : FileRecord) (p : Str)
    (habs : pathPresent db p = false) (hsp : s.full_path = p) :
    getDbMtime (db ++ [s]) p = s.mtime := by
  induction db with
  | nil =>
      show getDbMtime [s] p = s.mtime
      rw [show ([s] : Catalog) = s :: [] from rfl, getDbMtime_cons,
        if_pos (by simpa using hsp)]
  | cons d t ih =>
      rw [pathPresent_cons, Bool.or_eq_false_iff] at habs
      show getDbMtime (d :: (t ++ [s])) p = s.mtime
      rw [getDbMtime_cons, if_neg (by rw [habs.1]; simp), ih habs.2]

theorem pathPresent_append (db : Catalog) (s : FileRecord) (p : Str) :
    pathPresent (db ++ [s]) p = (pathPresent db p || (s.full_path == p)) := by
  simp [pathPresent]

theorem getDbMtime_ins_ne (db : Catalog) (s : FileRecord) (p : Str)
    (hne : s.full_path ≠ p) :
    getDbMtime (applyMut db (.ins s)) p = getDbMtime db p := by
  show getDbMtime (if pathPresent db s.full_path = true then db else db ++ [s]) p
    = getDbMtime db p
  by_cases hp : pathPresent db s.full_path = true
  · rw [if_pos hp]
  · rw [if_neg hp]
    exact getDbMtime_append_ne db s p hne

theorem pathPresent_ins_ne (db : Catalog) (s : FileRecord) (p : Str)
    (hne : s.full_path ≠ p) :
    pathPresent (applyMut db (.ins s)) p = pathPresent db p := by
  show pathPresent (if pathPresent db s.full_path = true then db else db ++ [s]) p
    = pathPresent db p
  by_cases hp : pathPresent db s.full_path = true
  · rw [if_pos hp]
  · rw [if_neg hp, pathPresent_append]
    have h2 : (s.full_path == p) = false := by simpa using hne
    rw [h2, Bool.or_false]

theorem getDbMtime_map_upd_ne (db : Catalog) (q n t2 : Str) (sz m : Int)
    (p : Str) (hne : q ≠ p) :
    getDbMtime (db.map (fun r =>
      if r.full_path == q then
        { full_path := r.full_path, name := n, type := t2, size := sz, mtime := m }
      else r)) p = getDbMtime db p := by
  induction db with
  | nil => rfl
  | cons d t ih =>
      rw [List.map_cons, getDbMtime_cons, getDbMtime_cons]
      by_cases hd : (d.full_path == q) = true
      · have hdq : d.full_path = q := by simpa using hd
        have hdp : (d.full_path == p) = false := by
          simp only [beq_eq_false_iff_ne, ne_eq, hdq]
          exact hne
        rw [if_pos hd]
        rw [if_neg (by simp [hdp]), if_neg (by simp [hdp]), ih]
      · rw [if_neg hd]
        by_cases hdp : (d.full_path == p) = true
        · rw [if_pos hdp, if_pos hdp]
        · rw [if_neg hdp, if_neg hdp, ih]

theorem pathPresent_map_upd (db : Catalog) (q n t2 : Str) (sz m : Int)
    (p : Str) :
    pathPresent (db.map (fun r =>
      if r.full_path == q then
        { full_path := r.full_path, name := n, type := t2, size := sz, mtime := m }
      else r)) p = pathPresent db p := by
  induction db with
  | nil => rfl
  | cons d t ih =>
      rw [List.map_cons, pathPresent_cons, pathPresent_cons, ih]
      by_cases hd : (d.full_path == q) = true
      · rw [if_pos hd]
      · rw [if_neg hd]

theorem getDbMtime_map_upd_self (db : Catalog) (q n t2 : Str) (sz m : Int)
    (hp : pathPresent db q = true) :
    getDbMtime (db.map (fun r =>
      if r.full_path == q then
        { full_path := r.full_path, name := n, type := t2, size := sz, mtime := m }
      else r)) q = m := by
  induction db with
  | nil => exact absurd hp (by simp [pathPresent])
  | cons d t ih =>
      rw [List.map_cons, getDbMtime_cons]
      by_cases hd : (d.full_path == q) = true
      · rw [if_pos hd]
        rw [if_pos (by simp [hd])]
      · have hd2 : (d.full_path == q) = false := by simpa using hd
        rw [pathPresent_cons, hd2, Bool.false_or] at hp
        rw [if_neg hd, if_neg hd, ih hp]

theorem getDbMtime_filter_del_ne (db : Catalog) (q p : Str) (hne : q ≠ p) :
    getDbMtime (db.filter (fun r => r.full_path != q)) p = getDbMtime db p := by
  induction db with
  | nil => rfl
  | cons d t ih =>
      rw [List.filter_cons]
      by_cases hd : (d.full_path != q) = true
      · rw [if_pos hd, getDbMtime_cons, getDbMtime_cons]
        by_cases hdp : (d.full_path == p) = true
        · rw [if_pos hdp, if_pos hdp]
        · rw [if_neg hdp, if_neg hdp, ih]
      · rw [if_neg hd, getDbMtime_cons]
        have hdq : d.full_path = q := by simpa using hd
        rw [if_neg (by simp only [beq_iff_eq, hdq]; exact hne), ih]

theorem pathPresent_filter_del_ne (db : Catalog) (q p : Str) (hne : q ≠ p) :
    pathPresent (db.filter (fun r => r.full_path != q)) p = pathPresent db p := by
  induction db with
  | nil => rfl
  | cons d t ih =>
      rw [List.filter_cons]
      by_cases hd : (d.full_path != q) = true
      · rw [if_pos hd, pathPresent_cons, pathPresent_cons, ih]
      · rw [if_neg hd, pathPresent_cons]
        have hdq : d.full_path = q := by simpa using hd
        have h2 : (d.full_path == p) = false := by
          simp only [beq_eq_false_iff_ne, ne_eq, hdq]
          exact hne
        rw [h2, Bool.false_or, ih]

theorem lookup_preserved (db : Catalog) (m : MutOp) (p : Str)
    (hne : mutPath m ≠ p) :
    getDbMtime (applyMut db m) p = getDbMtime db p ∧
    pathPresent (applyMut db m) p = pathPresent db p := by
  cases m with
  | ins s => exact ⟨getDbMtime_ins_ne db s p hne, pathPresent_ins_ne db s p hne⟩
  | upd q n t sz mt =>
      exact ⟨getDbMtime_map_upd_ne db q n t sz mt p hne,
        pathPresent_map_upd db q n t sz mt p⟩
  | del q =>
      exact ⟨getDbMtime_filter_del_ne db q p hne,
        pathPresent_filter_del_ne db q p hne⟩

/-! ## C5: settled entries and idempotence -/

theorem indexEntryOps_eq_ite (db : Catalog) (p : Str) (st : StatInfo) :
    indexEntryOps db p st
      = (if getDbMtime db p = st.mtime then []
         else if getDbMtime db p = 0 then [MutOp.ins (recordOf p st)]
         else [MutOp.upd p (baseName p) (typeOf st) st.size st.mtime]) := rfl

theorem indexEntryOps_cases (db : Catalog) (p : Str) (st : StatInfo) :
    (getDbMtime db p = st.mtime ∧ indexEntryOps db p st = []) ∨
    (getDbMtime db p = 0 ∧ getDbMtime db p ≠ st.mtime ∧
      indexEntryOps db p st = [MutOp.ins (recordOf p st)]) ∨
    (getDbMtime db p ≠ 0 ∧ getDbMtime db p ≠ st.mtime ∧
      indexEntryOps db p st
        = [MutOp.upd p (baseName p) (typeOf st) st.size st.mtime]) := by
  rw [indexEntryOps_eq_ite]
  by_cases h1 : getDbMtime db p = st.mtime
  · left
    exact ⟨h1, by rw [if_pos h1]⟩
  · by_cases h2 : getDbMtime db p = 0
    · right; left
      exact ⟨h2, h1, by rw [if_neg h1, if_pos h2]⟩
    · right; right
      exact ⟨h2, h1, by rw [if_neg h1, if_neg h2]⟩

theorem settled_ops (db : Catalog) (p : Str) (st : StatInfo)
    (h : Settled db p st) :
    indexEntryOps db p st = [] ∨
    (indexEntryOps db p st = [MutOp.ins (recordOf p st)] ∧
      pathPresent db p = true) := by
  rcases indexEntryOps_cases db p st with ⟨h1, he⟩ | ⟨h1, h2, he⟩ | ⟨h1, h2, he⟩
  · exact Or.inl he
  · rcases h with hs | ⟨hs0, hs2⟩
    · exact absurd hs h2
    · rcases hs2 with hm0 | hpres
      · exact absurd (by rw [h1, hm0]) h2
      · exact Or.inr ⟨he, hpres⟩
  · rcases h with hs | ⟨hs0, _⟩
    · exact absurd hs h2
    · exact absurd hs0 h1

theorem addCnt_zero_right (c : Nat × Nat × Nat) : addCnt c (0, 0, 0) = c := by
  simp [addCnt]

theorem applyCount_single (db : Catalog) (m : MutOp) :
    applyCount db [m] = (applyMut db m, mutChanges db m) := by
  show ((applyCount (applyMut db m) []).1,
    addCnt (mutChanges db m) (applyCount (applyMut db m) []).2) = _
  show (applyMut db m, addCnt (mutChanges db m) (0, 0, 0)) = _
  rw [addCnt_zero_right]

theorem settled_apply (db : Catalog) (p : Str) (st : StatInfo)
    (h : Settled db p st) :
    applyCount db (indexEntryOps db p st) = (db, (0, 0, 0)) := by
  rcases settled_ops db p st h with he | ⟨he, hp⟩
  · rw [he]
    rfl
  · rw [he, applyCount_single]
    have hp2 : pathPresent db (recordOf p st).full_path = true := hp
    show ((if pathPresent db (recordOf p st).full_path = true then db
        else db ++ [recordOf p st]),
      ((if pathPresent db (recordOf p st).full_path = true then 0 else 1), 0, 0))
      = (db, (0, 0, 0))
    rw [if_pos hp2, if_pos hp2]

theorem settled_after (db : Catalog) (p : Str) (st : StatInfo) :
    Settled (applyMuts db (indexEntryOps db p st)) p st := by
  rcases indexEntryOps_cases db p st with ⟨h1, he⟩ | ⟨h1, h2, he⟩ | ⟨h1, h2, he⟩
  · rw [he]
    exact Or.inl h1
  · rw [he]
    show Settled (applyMut db (MutOp.ins (recordOf p st))) p st
    show Settled (if pathPresent db (recordOf p st).full_path = true then db
      else db ++ [recordOf p st]) p st
    by_cases hp : pathPresent db (recordOf p st).full_path = true
    · rw [if_pos hp]
      exact Or.inr ⟨h1, Or.inr hp⟩
    · rw [if_neg hp]
      left
      have habs : pathPresent db p = false := by simpa using hp
      exact getDbMtime_append_absent db (recordOf p st) p habs rfl
  · rw [he]
    show Settled (applyMut db
      (MutOp.upd p (baseName p) (typeOf st) st.size st.mtime)) p st
    show Settled (db.map (fun r =>
      if r.full_path == p then
        { full_path := r.full_path, name := baseName p, type := typeOf st
          size := st.size, mtime := st.mtime }
      else r)) p st
    left
    exact getDbMtime_map_upd_self db p (baseName p) (typeOf st) st.size st.mtime
      (getDbMtime_ne_zero_present db p h1)

theorem mutPath_indexEntryOps (db : Catalog) (p : Str) (st : StatInfo) :
    ∀ m ∈ indexEntryOps db p st, mutPath m = p := by
  intro m hm
  rcases indexEntryOps_cases db p st with ⟨_, he⟩ | ⟨_, _, he⟩ | ⟨_, _, he⟩ <;>
    rw [he] at hm
  · simp at hm
  · rw [List.mem_singleton] at hm
    rw [hm]
    rfl
  · rw [List.mem_singleton] at hm
    rw [hm]
    rfl

theorem settled_preserve_ops (p : Str) (st : StatInfo) :
    ∀ (ops : List MutOp) (db : Catalog),
    Settled db p st → (∀ m ∈ ops, mutPath m ≠ p) →
    Settled (applyMuts db ops) p st := by
  intro ops
  induction ops with
  | nil =>
      intro db h _
      exact h
  | cons m t ih =>
      intro db h hall
      have hm := hall m (List.mem_cons_self _ _)
      obtain ⟨hg, hp⟩ := lookup_preserved db m p hm
      have h2 : Settled (applyMut db m) p st := by
        unfold Settled at h ⊢
        rw [hg, hp]
        exact h
      exact ih (applyMut db m) h2 (fun x hx => hall x (List.mem_cons_of_mem _ hx))

theorem visitsOps_cons (db : Catalog) (p : Str) (st : StatInfo)
    (tl : List (Str × StatInfo)) :
    visitsOps db ((p, st) :: tl)
      = indexEntryOps db p st
        ++ visitsOps (applyMuts db (indexEntryOps db p st)) tl := rfl

theorem visits_settle (fs : FS) (p : Str) (st : StatInfo) :
    ∀ (vs : List (Str × StatInfo)) (db : Catalog),
    (∀ q stq, (q, stq) ∈ vs → fs.stat q = some stq) →
    fs.stat p = some st →
    (Settled db p st ∨ (p, st) ∈ vs) →
    Settled (applyMuts db (visitsOps db vs)) p st := by
  intro vs
  induction vs with
  | nil =>
      intro db _ _ h
      rcases h with h | h
      · exact h
      · simp at h
  | cons v tl ih =>
      intro db hcons hstat h
      cases v with
      | mk q stq =>
          rw [visitsOps_cons, applyMuts_append]
          apply ih
          · exact fun q2 st2 hm2 => hcons q2 st2 (List.mem_cons_of_mem _ hm2)
          · exact hstat
          · by_cases hpq : p = q
            · subst hpq
              have hstq : stq = st := by
                have h1 := hcons p stq (List.mem_cons_self _ _)
                rw [hstat] at h1
                exact (Option.some.inj h1).symm
              subst hstq
              exact Or.inl (settled_after db p stq)
            · rcases h with h | h
              · left
                refine settled_preserve_ops p st (indexEntryOps db q stq) db h ?_
                intro m hm he
                rw [mutPath_indexEntryOps db q stq m hm] at he
                exact hpq he.symm
              · rcases List.mem_cons.1 h with he | hm
                · exact absurd (congrArg Prod.fst he) hpq
                · exact Or.inr hm

theorem visits_settled_count :
    ∀ (vs : List (Str × StatInfo)) (db : Catalog),
    (∀ q stq, (q, stq) ∈ vs → Settled db q stq) →
    applyCount db (visitsOps db vs) = (db, (0, 0, 0)) ∧
    applyMuts db (visitsOps db vs) = db := by
  intro vs
  induction vs with
  | nil =>
      intro db _
      exact ⟨rfl, rfl⟩
  | cons v tl ih =>
      intro db hall
      cases v with
      | mk q stq =>
          have hq := hall q stq (List.mem_cons_self _ _)
          have hcnt : applyCount db (indexEntryOps db q stq) = (db, (0, 0, 0)) :=
            settled_apply db q stq hq
          have happ : applyMuts db (indexEntryOps db q stq) = db := by
            have h2 := congrArg Prod.fst hcnt
            rw [applyCount_fst] at h2
            exact h2
          rw [visitsOps_cons, happ]
          obtain ⟨ih1, ih2⟩ :=
            ih db (fun q2 st2 hm => hall q2 st2 (List.mem_cons_of_mem _ hm))
          constructor
          · rw [applyCount_append, happ, ih1, hcnt]
            rfl
          · rw [applyMuts_append, happ, ih2]

theorem pruneOps_mutPath (fs : FS) (root : Str) (db : Catalog) (p : Str)
    (st : StatInfo) (hstat : fs.stat p = some st) :
    ∀ m ∈ pruneOps fs root db, mutPath m ≠ p := by
  intro m hm
  unfold pruneOps at hm
  obtain ⟨r, hr, hmr⟩ := List.mem_map.1 hm
  rw [← hmr]
  intro he
  have he2 : r.full_path = p := he
  have hc := (List.mem_filter.1 hr).2
  unfold pruneCond pruneCondPath at hc
  rw [Bool.and_eq_true] at hc
  have hnone := hc.2
  rw [he2, hstat] at hnone
  simp at hnone

theorem pruneOps_of_pruned (fs : FS) (root : Str) (db : Catalog) :
    pruneOps fs root (applyMuts db (pruneOps fs root db)) = [] := by
  rw [prune_apply]
  unfold pruneOps
  have hfil : ((db.filter (fun r => !(pruneCond fs root r))).filter
      (pruneCond fs root)) = [] := by
    rw [List.filter_filter]
    apply List.filter_eq_nil_iff.2
    intro a _
    cases h : pruneCond fs root a <;> simp [h]
  rw [hfil]
  rfl

/-- **C5**: indexing the same root twice over an unchanged filesystem is
idempotent — the second run reproduces the first run's catalog exactly and
performs zero (effective) inserts, zero updates and zero deletes. -/
theorem C5_index_twice_idempotent (fs : FS) (excl : List Str) (root : Str)
    (fuel : Nat) (db0 db1 : Catalog) (c1 : Nat × Nat × Nat)
    (h : indexRun fs excl root fuel db0 = some (db1, c1)) :
    indexRun fs excl root fuel db1 = some (db1, (0, 0, 0)) := by
  obtain ⟨vs, e, hw⟩ : ∃ vs e, walkLoop fs excl fuel [root] = some (vs, e) := by
    unfold indexRun runMuts at h
    cases hwk : walkLoop fs excl fuel [root] with
    | none => rw [hwk] at h; exact absurd h (by simp)
    | some ve => exact ⟨ve.1, ve.2, rfl⟩
  have hops : runMuts fs excl root fuel db0
      = some (visitsOps db0 vs
          ++ pruneOps fs root (applyMuts db0 (visitsOps db0 vs))) := by
    unfold runMuts
    rw [hw]
  have hdb1 : db1 = applyMuts (applyMuts db0 (visitsOps db0 vs))
      (pruneOps fs root (applyMuts db0 (visitsOps db0 vs))) := by
    unfold indexRun at h
    rw [hops] at h
    simp only [Option.map_some'] at h
    have h2 := congrArg Prod.fst (Option.some.inj h)
    rw [applyCount_fst, applyMuts_append] at h2
    exact h2.symm
  have hfacts := walkLoop_visits_facts fs excl root fuel [root] vs e
    (by intro s hs; rw [List.mem_singleton.1 hs]) hw
  have hstat : ∀ q stq, (q, stq) ∈ vs → fs.stat q = some stq :=
    fun q stq hm => (hfacts q stq hm).1
  have hsetA : ∀ q stq, (q, stq) ∈ vs →
      Settled (applyMuts db0 (visitsOps db0 vs)) q stq :=
    fun q stq hm => visits_settle fs q stq vs db0 hstat (hstat q stq hm)
      (Or.inr hm)
  have hset1 : ∀ q stq, (q, stq) ∈ vs → Settled db1 q stq := by
    intro q stq hm
    rw [hdb1]
    exact settled_preserve_ops q stq _ _ (hsetA q stq hm)
      (pruneOps_mutPath fs root _ q stq (hstat q stq hm))
  obtain ⟨hcnt2, happ2⟩ := visits_settled_count vs db1 hset1
  have hprune2 : pruneOps fs root (applyMuts db1 (visitsOps db1 vs)) = [] := by
    rw [happ2, hdb1]
    exact pruneOps_of_pruned fs root (applyMuts db0 (visitsOps db0 vs))
  unfold indexRun runMuts
  rw [hw]
  show Option.map (applyCount db1) (some (visitsOps db1 vs
      ++ pruneOps fs root (applyMuts db1 (visitsOps db1 vs))))
    = some (db1, (0, 0, 0))
  rw [hprune2, List.append_nil]
  simp only [Option.map_some']
  rw [hcnt2]

/-- Witness for C5: after indexing `fsW` from an empty catalog, a second run
over the resulting catalog changes nothing and counts zero operations. -/
theorem C5_witness :
    indexRun fsW [] (str "/r") 5 dbW = some (dbW, (0, 0, 0)) :=
  C5_index_twice_idempotent fsW [] (str "/r") 5 [] dbW (3, 0, 0) (by decide)

/-! ## C8: frontier-stack allocation and grow failures -/

theorem runSql_commit_trace (db0 : Catalog) (ms : List MutOp) :
    runSql ⟨db0, none⟩ (SqlOp.begin :: (ms.map SqlOp.mut ++ [SqlOp.commit]))
      = ⟨applyMuts db0 ms, none⟩ := by
  show runSql (applySql ⟨db0, none⟩ SqlOp.begin)
    (ms.map SqlOp.mut ++ [SqlOp.commit]) = _
  rw [show applySql (⟨db0, none⟩ : Conn) SqlOp.begin
      = (⟨db0, some db0⟩ : Conn) from rfl]
  rw [show runSql (⟨db0, some db0⟩ : Conn) (ms.map SqlOp.mut ++ [SqlOp.commit])
      = runSql (runSql ⟨db0, some db0⟩ (ms.map SqlOp.mut)) [SqlOp.commit]
    from List.foldl_append _ _ _ _]
  rw [runSql_muts]
  rfl

theorem runSql_rollback_trace (db0 : Catalog) (ms : List MutOp) :
    runSql ⟨db0, none⟩ (SqlOp.begin :: (ms.map SqlOp.mut ++ [SqlOp.rollback]))
      = ⟨db0, none⟩ := by
  show runSql (applySql ⟨db0, none⟩ SqlOp.begin)
    (ms.map SqlOp.mut ++ [SqlOp.rollback]) = _
  rw [show applySql (⟨db0, none⟩ : Conn) SqlOp.begin
      = (⟨db0, some db0⟩ : Conn) from rfl]
  rw [show runSql (⟨db0, some db0⟩ : Conn) (ms.map SqlOp.mut ++ [SqlOp.rollback])
      = runSql (runSql ⟨db0, some db0⟩ (ms.map SqlOp.mut)) [SqlOp.rollback]
    from List.foldl_append _ _ _ _]
  rw [runSql_muts]
  rfl

theorem processEntriesA_total (fs : FS) (excl : List Str) (grow : Nat → Bool)
    (hg : ∀ k, grow k = true) (current : Str) :
    ∀ (ns : List Str) (stackLen : Nat) (a : AllocSt),
    (processEntriesA fs excl grow current ns stackLen a).visits
        = (processEntries fs excl current ns).1 ∧
    (processEntriesA fs excl grow current ns stackLen a).dirs
        = (processEntries fs excl current ns).2.1 ∧
    (processEntriesA fs excl grow current ns stackLen a).errs
        = (processEntries fs excl current ns).2.2 ∧
    (processEntriesA fs excl grow current ns stackLen a).aborted = false := by
  intro ns
  induction ns with
  | nil =>
      intro stackLen a
      exact ⟨rfl, rfl, rfl, rfl⟩
  | cons n ns ih =>
      intro stackLen a
      rw [processEntriesA, processEntries]
      by_cases h1 : (n == str "." || n == str "..") = true
      · rw [if_pos h1, if_pos h1]
        exact ih stackLen a
      · rw [if_neg h1, if_neg h1]
        by_cases h2 : isExcluded excl (childPath current n) = true
        · rw [if_pos h2, if_pos h2]
          exact ih stackLen a
        · rw [if_neg h2, if_neg h2]
          cases hstat : fs.stat (childPath current n) with
          | none =>
              obtain ⟨e1, e2, e3, e4⟩ := ih stackLen a
              simp [PEOut.addErr, e1, e2, e3, e4]
          | some st =>
              by_cases hdir : st.isDir = true
              · by_cases hcap : stackLen ≥ a.cap
                · obtain ⟨e1, e2, e3, e4⟩ := ih (stackLen + 1) ⟨a.cap * 2, a.gidx + 1⟩
                  simp [PEOut.addVisit, hdir, hcap, hg a.gidx, e1, e2, e3, e4]
                · obtain ⟨e1, e2, e3, e4⟩ := ih (stackLen + 1) a
                  simp [PEOut.addVisit, hdir, hcap, e1, e2, e3, e4]
              · obtain ⟨e1, e2, e3, e4⟩ := ih stackLen a
                simp [PEOut.addVisit, hdir, e1, e2, e3, e4]

theorem walkLoopA_total (fs : FS) (excl : List Str) (grow : Nat → Bool)
    (hg : ∀ k, grow k = true) :
    ∀ (fuel : Nat) (stack : List Str) (a : AllocSt),
    walkLoopA fs excl grow fuel stack a
      = (walkLoop fs excl fuel stack).map (fun ve => WalkOut.done ve.1 ve.2) := by
  intro fuel
  induction fuel with
  | zero =>
      intro stack a
      cases stack with
      | nil => rfl
      | cons c cs => rfl
  | succ fuel ih =>
      intro stack a
      cases stack with
      | nil => rfl
      | cons current rest =>
          cases hdir : fs.listDir current with
          | none =>
              simp only [walkLoopA, walkLoop, hdir]
              rw [ih rest a]
              cases hrec : walkLoop fs excl fuel rest with
              | none => rfl
              | some ve => rfl
          | some names =>
              obtain ⟨e1, e2, e3, e4⟩ :=
                processEntriesA_total fs excl grow hg current names rest.length a
              simp only [walkLoopA, walkLoop, hdir]
              rw [if_neg (by simp [e4]), e2,
                ih ((processEntries fs excl current names).2.1.reverse ++ rest)
                  (processEntriesA fs excl grow current names rest.length a).alloc]
              cases hrec : walkLoop fs excl fuel
                  ((processEntries fs excl current names).2.1.reverse ++ rest) with
              | none => rfl
              | some ve => simp [e1, e3]

theorem indexCommand_total_run (fs : FS) (excl : List Str) (root : Str)
    (fuel : Nat) (db0 : Catalog) :
    indexCommand true (fun _ => true) fs excl root fuel db0
      = (indexRun fs excl root fuel db0).map
          (fun x => ({ committed := x.1, txn := none }, 0)) := by
  unfold indexCommand runTraceA indexRun runMuts
  rw [walkLoopA_total fs excl (fun _ => true) (fun _ => rfl) fuel [root]
    ⟨initialCapacity, 0⟩]
  cases hw : walkLoop fs excl fuel [root] with
  | none => rfl
  | some ve =>
      show some (runSql ⟨db0, none⟩ (SqlOp.begin ::
          ((visitsOps db0 ve.1
            ++ pruneOps fs root (applyMuts db0 (visitsOps db0 ve.1))).map SqlOp.mut
          ++ [SqlOp.commit])), 0)
        = some (Conn.mk (applyCount db0 (visitsOps db0 ve.1
            ++ pruneOps fs root (applyMuts db0 (visitsOps db0 ve.1)))).1 none, 0)
      rw [runSql_commit_trace, applyCount_fst]

/-- **C8** counterexample: at a concrete input where the initial
frontier-stack allocation fails, the `index` command issues no statement,
leaves the catalog untouched, and the process exit status is 0 — not the
non-zero exit the claim requires (`_index_files_dynamic` only logs and
returns, and `main` then returns 0). -/
theorem C8_counterexample :
    indexCommand false (fun _ => true) fsNone [] (str "/r") 1 []
      = some ({ committed := [], txn := none }, 0) := rfl

/-- **C8** amended: failure to allocate the frontier stack — at the initial
allocation, before any statement is issued, or when growing it mid-run, in
which case the open transaction is rolled back — aborts the index run with a
logged diagnostic and leaves the committed catalog exactly as it was; but
the process then exits with status 0, not a non-zero status. -/
theorem C8_alloc_or_grow_failure_exit_zero (fs : FS) (excl : List Str)
    (root : Str) (fuel : Nat) (db0 : Catalog) (grow : Nat → Bool) :
    indexCommand false grow fs excl root fuel db0
      = some ({ committed := db0, txn := none }, 0) ∧
    ∀ vs, walkLoopA fs excl grow fuel [root] ⟨initialCapacity, 0⟩
        = some (WalkOut.grewFail vs) →
      indexCommand true grow fs excl root fuel db0
        = some ({ committed := db0, txn := none }, 0) := by
  constructor
  · rfl
  · intro vs hvs
    unfold indexCommand runTraceA
    rw [hvs]
    show some (runSql ⟨db0, none⟩ (SqlOp.begin ::
        ((visitsOps db0 vs).map SqlOp.mut ++ [SqlOp.rollback])), 0)
      = some ({ committed := db0, txn := none }, 0)
    rw [runSql_rollback_trace]

set_option maxRecDepth 100000 in
set_option maxHeartbeats 2000000 in
/-- Witness for C8: a root directory with 1001 subdirectory entries
overflows the initial capacity of 1000; with the `realloc` failing, the run
is rolled back — committed catalog unchanged — and the exit status is 0. -/
theorem C8_witness :
    indexCommand true (fun _ => false) fsBig [] (str "/r") 2 []
      = some ({ committed := [], txn := none }, 0) :=
  (C8_alloc_or_grow_failure_exit_zero fsBig [] (str "/r") 2 []
    (fun _ => false)).2 visBig (by decide)

end Windex
